import Mathlib

/-!
# Verification of `multi-string-search` (SBOM factor-oracle search)

Shallow embedding of `src/multi_string_search/__init__.py`.

Strings are modelled as `List Char`.  Python `TrieNode` objects live in an
arena (`Array TrieNode`); `parent` and the values in `children` are arena
indices (index 0 is the root), and the Python object id of the node at arena
index `i` is `base + i`, where `base` is the value of the global mutable
class counter `TrieNode.counter` at the moment the build started (nodes are
allocated in creation order).  The oracle's transition table is keyed by
object id, exactly as the Python `edges` dictionary is.
-/

namespace MSS

/-- One node of the reversed-prefix trie (`class TrieNode`).  `children` keeps
insertion order, like a Python dict. -/
structure TrieNode where
  parent : Option Nat
  char : Option Char
  children : List (Char × Nat)
  terms : List (List Char)
deriving Repr, DecidableEq, Inhabited

/-- A fresh root node (`TrieNode()` with no parent, char, children, terms). -/
def rootNode : TrieNode := ⟨none, none, [], []⟩

/-- Arena lookup (total, with an inert default for out-of-range indices). -/
def getN (A : Array TrieNode) (i : Nat) : TrieNode := A.getD i rootNode

/-- `child_char in node` / `node[child_char]`: look up a child by symbol. -/
def findChild (n : TrieNode) (c : Char) : Option Nat :=
  (n.children.find? (fun p => p.1 == c)).map (fun p => p.2)

/-- The walk/extend of `TrieNode.from_terms`' inner loop: follow `cs` from
node `i`, creating missing children (`TrieNode(parent=node, char=char)` plus
`add_child`), returning the updated arena and the final node index. -/
def insertChars : Array TrieNode → Nat → List Char → Array TrieNode × Nat
  | A, i, [] => (A, i)
  | A, i, c :: cs =>
    match findChild (getN A i) c with
    | some j => insertChars A j cs
    | none =>
      let j := A.size
      let A' := A.push { parent := some i, char := some c, children := [], terms := [] }
      let A2 := A'.modify i (fun n => { n with children := n.children ++ [(c, j)] })
      insertChars A2 j cs

/-- `node.add_term(term)`: frozenset union with a singleton. -/
def addTerm (A : Array TrieNode) (i : Nat) (t : List Char) : Array TrieNode :=
  A.modify i (fun n =>
    { n with terms := if t ∈ n.terms then n.terms else n.terms ++ [t] })

/-- `TrieNode.from_terms(terms, prefix_length)`: insert the reversed
`prefix_length`-prefix of every term, then record the term at the final node. -/
def TrieNode.from_terms (terms : List (List Char)) (prefix_length : Nat) :
    Array TrieNode :=
  terms.foldl (fun A t =>
    let r := insertChars A 0 ((t.take prefix_length).reverse)
    addTerm r.1 r.2 t) #[rootNode]

/-- `TrieNode.__iter__`: breadth-first traversal (queue, children in
insertion order).  The fuel bounds the number of pops; for tries built by
`from_terms` every node is enqueued exactly once, so `A.size` pops suffice. -/
def bfsAux (A : Array TrieNode) : Nat → List Nat → List Nat
  | 0, _ => []
  | _ + 1, [] => []
  | fuel + 1, i :: queue =>
    i :: bfsAux A fuel (queue ++ (getN A i).children.map (fun p => p.2))

/-- The breadth-first enumeration of a trie, root first. -/
def trieBFS (A : Array TrieNode) : List Nat := bfsAux A A.size [0]

/-- The transition table under construction, plus `destination_nodes` (ids of
nodes marked as having received an inbound supplementary transition).
`edges` is keyed by Python object id (`base + arena index`); the stored value
is the arena index of the target node. -/
structure GraphSt where
  edges : Nat → Char → Option Nat
  dest : List Nat

/-- Point update of the transition table (`edges[k][c] = v`). -/
def updEdges (e : Nat → Char → Option Nat) (k : Nat) (c : Char) (v : Nat) :
    Nat → Char → Option Nat :=
  fun k' c' => if k' = k ∧ c' = c then some v else e k' c'

/-- The upward walk of `_build_graph` that collects `transitions`:
starting from the processed node's parent `p`, repeatedly step to the
grandparent, appending the stepped-over symbol whenever the node above has a
truthy id (`if parent.id:` — false exactly for the root of a first build,
where `base = 0`), and stopping early when the node above is in
`destination_nodes`. -/
def collectTransitions (A : Array TrieNode) (base : Nat) (dest : List Nat) :
    Nat → Nat → List Char
  | 0, _ => []
  | fuel + 1, p =>
    if p = 0 then [] else
      let c := (getN A p).char.getD 'a'
      let pp := (getN A p).parent.getD 0
      (if base + pp ≠ 0 then [c] else []) ++
        (if base + pp ∈ dest then []
         else collectTransitions A base dest fuel pp)

/-- The forward navigation of `_build_graph`: follow the collected symbols
from the root through the edges built so far; a missing transition (or a jump
to the root) aborts the navigation at the root. -/
def navigateT (edges : Nat → Char → Option Nat) (base : Nat) :
    List Char → Nat → Nat
  | [], pl => pl
  | c :: rest, pl =>
    match edges (base + pl) c with
    | none => 0
    | some pl' => if pl' = 0 then 0 else navigateT edges base rest pl'

/-- The body of `_build_graph`'s loop for one non-root node `i`: the primary
edge, the internal supplementary edge (guarded), and the root fallback
(guarded). -/
def processNode (A : Array TrieNode) (base : Nat) (st : GraphSt) (i : Nat) :
    GraphSt :=
  let n := getN A i
  let p := n.parent.getD 0
  let c := n.char.getD 'a'
  let e1 := updEdges st.edges (base + p) c i
  let tr := collectTransitions A base st.dest A.size p
  let pl := navigateT e1 base tr 0
  let st1 : GraphSt :=
    if pl ≠ 0 ∧ e1 (base + pl) c = none then
      ⟨updEdges e1 (base + pl) c i, st.dest ++ [base + pl]⟩
    else ⟨e1, st.dest⟩
  if st1.edges (base + 0) c = none then
    ⟨updEdges st1.edges (base + 0) c i, st1.dest ++ [base + i]⟩
  else st1

/-- `FactorOracle._build_graph(root)`: fold the per-node step over the
breadth-first traversal, skipping the root. -/
def FactorOracle.build_graph (A : Array TrieNode) (base : Nat) : GraphSt :=
  ((trieBFS A).filter (fun i => decide (i ≠ 0))).foldl (processNode A base)
    ⟨fun _ _ => none, []⟩

/-- The factor oracle: query terms, window length, counter base, trie arena
and transition table. -/
structure FactorOracle where
  query_terms : List (List Char)
  prefix_length : Nat
  base : Nat
  trie : Array TrieNode
  graph : Nat → Char → Option Nat

/-- The one runtime error the constructor can raise: Python's
`min() arg is an empty sequence` `ValueError` from
`min(map(len, query_terms))` on an empty pattern collection. -/
inductive PyError where
  | valueErrorMinEmpty
deriving Repr, DecidableEq

/-- `FactorOracle.__init__(query_terms)`, with `base` the value of the global
`TrieNode.counter` when construction starts (0 in a fresh interpreter). -/
def FactorOracle.init (base : Nat) (query_terms : List (List Char)) :
    Except PyError FactorOracle :=
  match (query_terms.map List.length).min? with
  | none => .error .valueErrorMinEmpty
  | some l =>
    let A := TrieNode.from_terms query_terms l
    .ok { query_terms, prefix_length := l, base, trie := A,
          graph := (FactorOracle.build_graph A base).edges }

/-- The backward walk over one window (`for char in reversed(window): ...`):
`advance` is decremented on every symbol read (also the killing one), and the
walk stops on a missing transition or on a state with non-empty `terms`. -/
def walkWindow (g : Nat → Char → Option Nat) (base : Nat) (A : Array TrieNode) :
    Nat → Int → List Char → Option Nat × Int
  | s, advance, [] => (some s, advance)
  | s, advance, ch :: rest =>
    match g (base + s) ch with
    | none => (none, advance - 1)
    | some s' =>
      if (getN A s').terms ≠ [] then (some s', advance - 1)
      else walkWindow g base A s' (advance - 1) rest

/-- One iteration of `FactorOracle.search`'s main loop (after the guards):
walk the window backwards, advance the cursor, confirm and remove terms, and
nudge the cursor by one when `advance == 0`. -/
def searchIteration (g : Nat → Char → Option Nat) (base : Nat)
    (A : Array TrieNode) (l : Nat) (doc : List Char)
    (remaining : List (List Char)) : List Char × List (List Char) :=
  let window := doc.take l
  let r := walkWindow g base A 0 (l : Int) window.reverse
  let doc1 := doc.drop r.2.toNat
  let remaining1 :=
    match r.1 with
    | some s =>
      if (getN A s).terms ≠ [] then
        remaining.filter (fun t =>
          decide (¬ (t ∈ (getN A s).terms ∧ t <+: doc1)))
      else remaining
    | none => remaining
  let doc2 := if r.2 = 0 then doc1.drop 1 else doc1
  (doc2, remaining1)

/-- `FactorOracle.search`'s main loop.  The fuel only bounds the number of
iterations; since every iteration strictly shortens the document,
`document.length + 1` iterations always suffice. -/
def searchLoop (g : Nat → Char → Option Nat) (base : Nat) (A : Array TrieNode)
    (l : Nat) : Nat → List Char → List (List Char) → Bool
  | 0, _, remaining => remaining.isEmpty
  | fuel + 1, doc, remaining =>
    if (doc.take l).isEmpty ∨ remaining.isEmpty then remaining.isEmpty
    else if (doc.take l).length < l then remaining.isEmpty
    else
      let r := searchIteration g base A l doc remaining
      searchLoop g base A l fuel r.1 r.2

/-- `FactorOracle.search(document)`. -/
def FactorOracle.search (o : FactorOracle) (document : List Char) : Bool :=
  searchLoop o.graph o.base o.trie o.prefix_length (document.length + 1)
    document o.query_terms

/-- `search_naive(document, terms)`: every term is a substring. -/
def search_naive (document : List Char) (terms : List (List Char)) : Bool :=
  terms.all (fun t => decide (t <:+: document))

/-- `search_sbom` run in an interpreter whose `TrieNode.counter` currently
holds `base`. -/
def search_sbomAt (base : Nat) (document : List Char)
    (terms : List (List Char)) : Except PyError Bool :=
  (FactorOracle.init base terms).map (fun o => o.search document)

/-- `search_sbom(document, terms)` as called in a fresh interpreter
(`TrieNode.counter = 0`). -/
def search_sbom (document : List Char) (terms : List (List Char)) :
    Except PyError Bool :=
  search_sbomAt 0 document terms

/-- Pure transition-following from a state, with no early stop: `none`
signals that some symbol had no outgoing transition ("dead"). -/
def feedOracle (g : Nat → Char → Option Nat) (base : Nat) :
    Nat → List Char → Option Nat
  | s, [] => some s
  | s, c :: cs =>
    match g (base + s) c with
    | none => none
    | some s' => feedOracle g base s' cs

/-- The oracle built from {"xyz"} in a fresh interpreter, used by the
concrete dead-walk scenario of C7. -/
def xyzOracle : FactorOracle :=
  match FactorOracle.init 0 [['x', 'y', 'z']] with
  | .ok o => o
  | .error _ => ⟨[], 0, 0, #[rootNode], fun _ _ => none⟩

/-- The symbols on the path from node `i` up to the root, deepest first
(`i`'s own symbol first).  The fuel only bounds the recursion; since parent
indices strictly decrease, `A.size` is always enough for in-range nodes. -/
def chainF (A : Array TrieNode) : Nat → Nat → List Char
  | 0, _ => []
  | fuel + 1, i =>
    match (getN A i).parent, (getN A i).char with
    | some p, some c => c :: chainF A fuel p
    | _, _ => []

/-- The root-to-`i` spelling of the trie path to node `i`. -/
def pathTo (A : Array TrieNode) (i : Nat) : List Char :=
  (chainF A A.size i).reverse

/-- Well-formedness of a trie arena: index 0 is the root (no parent, no
symbol); every other node stores its parent (an earlier index) and edge
symbol consistently with the parent's `children`; children entries are
in-range, point downward, agree with the child's back-pointers, and within
one node the symbol determines the child and vice versa. -/
structure TrieWF (A : Array TrieNode) : Prop where
  size_pos : 0 < A.size
  root_parent : (getN A 0).parent = none
  root_char : (getN A 0).char = none
  node_parent : ∀ i, 1 ≤ i → i < A.size →
    ∃ p c, (getN A i).parent = some p ∧ (getN A i).char = some c ∧
      p < i ∧ (c, i) ∈ (getN A p).children
  children_wf : ∀ i, i < A.size → ∀ c j, (c, j) ∈ (getN A i).children →
    j < A.size ∧ i < j ∧ (getN A j).parent = some i ∧ (getN A j).char = some c
  children_fun : ∀ i, i < A.size → ∀ c c' j j',
    (c, j) ∈ (getN A i).children → (c', j') ∈ (getN A i).children →
    (c = c' ↔ j = j')
  children_nodup : ∀ i, i < A.size →
    ((getN A i).children.map (fun p => p.2)).Nodup

/-- The chain of a node's ancestors (itself included, deepest first),
with fuel; `i + 1` is always enough fuel since parent indices decrease. -/
def ancChainF (A : Array TrieNode) : Nat → Nat → List Nat
  | 0, _ => []
  | fuel + 1, i =>
    i :: (match (getN A i).parent with
      | some p => ancChainF A fuel p
      | none => [])

/-- The ancestors of node `i`, itself included. -/
def ancestorsOf (A : Array TrieNode) (i : Nat) : List Nat :=
  ancChainF A (i + 1) i

/-- `i` lies in the subtree of some member of the queue `q`. -/
def inClosure (A : Array TrieNode) (q : List Nat) (i : Nat) : Prop :=
  ∃ a ∈ q, a ∈ ancestorsOf A i

instance (A : Array TrieNode) (q : List Nat) (i : Nat) :
    Decidable (inClosure A q i) := by
  unfold inClosure
  infer_instance

/-- The number of in-range nodes inside the queue's subtrees: the potential
that strictly decreases at every pop of the breadth-first traversal. -/
def phiQ (A : Array TrieNode) (q : List Nat) : Nat :=
  ((List.range A.size).filter (fun i => decide (inClosure A q i))).length

/-- Monotone growth of a trie arena, as produced by `insertChars`: existing
nodes keep their parent, symbol and terms and only append children; freshly
created nodes carry no terms. -/
structure ArenaExt (A A' : Array TrieNode) : Prop where
  size_le : A.size ≤ A'.size
  parent_eq : ∀ j, j < A.size → (getN A' j).parent = (getN A j).parent
  char_eq : ∀ j, j < A.size → (getN A' j).char = (getN A j).char
  terms_eq : ∀ j, j < A.size → (getN A' j).terms = (getN A j).terms
  children_ext : ∀ j, j < A.size →
    ∃ ext, (getN A' j).children = (getN A j).children ++ ext
  new_terms : ∀ j, A.size ≤ j → j < A'.size → (getN A' j).terms = []

/-- The invariant of the reversed-prefix trie built by `from_terms` from the
processed terms `ts` with prefix length `l`: every non-root path is a prefix
of some term's reversed `l`-prefix, terms sit exactly at the end of their
own reversed prefix, every processed term is present at its terminal node,
and nodes with children lie strictly above depth `l`. -/
structure TrieInvP (A : Array TrieNode) (ts : List (List Char)) (l : Nat) :
    Prop where
  wf : TrieWF A
  path_pref : ∀ i, 1 ≤ i → i < A.size →
    ∃ t, t ∈ ts ∧ pathTo A i <+: (t.take l).reverse
  terms_sub : ∀ i, i < A.size → ∀ t, t ∈ (getN A i).terms →
    t ∈ ts ∧ pathTo A i = (t.take l).reverse
  term_node : ∀ t, t ∈ ts →
    ∃ i, i < A.size ∧ pathTo A i = (t.take l).reverse ∧ t ∈ (getN A i).terms
  children_depth : ∀ i, i < A.size → (getN A i).children ≠ [] →
    (pathTo A i).length < l

/-! ## Arena lemmas -/

theorem getN_oob (A : Array TrieNode) (j : Nat) (h : A.size ≤ j) :
    getN A j = rootNode := by
  unfold getN Array.getD
  rw [dif_neg (by omega)]

theorem getN_push_lt (A : Array TrieNode) (n : TrieNode) (j : Nat)
    (h : j < A.size) : getN (A.push n) j = getN A j := by
  unfold getN Array.getD
  rw [dif_pos (by simp; omega), dif_pos h]
  simp [Array.getElem_push_lt, h]

theorem getN_push_eq (A : Array TrieNode) (n : TrieNode) :
    getN (A.push n) A.size = n := by
  unfold getN Array.getD
  rw [dif_pos (by simp)]
  simp [Array.getElem_push_eq]

theorem getN_modify (A : Array TrieNode) (i : Nat) (f : TrieNode → TrieNode)
    (j : Nat) :
    getN (A.modify i f) j =
      if i = j ∧ j < A.size then f (getN A j) else getN A j := by
  by_cases h : j < A.size
  · unfold getN Array.getD
    rw [dif_pos (by simpa using h), dif_pos h]
    by_cases hij : i = j
    · subst hij
      simp [Array.getElem_modify, h]
    · simp [Array.getElem_modify, hij, h]
  · rw [getN_oob _ _ (by simpa using not_lt.mp h), getN_oob A j (not_lt.mp h),
      if_neg (by tauto)]

/-! ## Path lemmas -/

/-- Under well-formedness, the fuel of `chainF` is irrelevant as soon as it
exceeds the node index (parent indices strictly decrease). -/
theorem chainF_agree (A : Array TrieNode) (hW : TrieWF A) :
    ∀ (i fuel fuel' : Nat), i < fuel → i < fuel' →
      chainF A fuel i = chainF A fuel' i := by
  intro i
  induction i using Nat.strong_induction_on with
  | _ i ih =>
    intro fuel fuel' hf hf'
    cases fuel with
    | zero => omega
    | succ m =>
      cases fuel' with
      | zero => omega
      | succ m' =>
        simp only [chainF]
        cases hp : (getN A i).parent with
        | none => rfl
        | some p =>
          cases hc : (getN A i).char with
          | none => rfl
          | some c =>
            have hplt : p < i := by
              by_cases hi0 : i = 0
              · subst hi0; rw [hW.root_parent] at hp; cases hp
              · by_cases his : i < A.size
                · obtain ⟨p', c', hp', _, hlt, _⟩ :=
                    hW.node_parent i (by omega) his
                  rw [hp] at hp'; cases hp'; exact hlt
                · rw [getN_oob A i (by omega)] at hp; cases hp
            simp only []
            rw [ih p hplt m m' (by omega) (by omega)]

/-- The path to the root is empty. -/
theorem pathTo_root (A : Array TrieNode) (hW : TrieWF A) : pathTo A 0 = [] := by
  unfold pathTo
  cases hs : A.size with
  | zero => simp [chainF]
  | succ m =>
    simp only [chainF, hW.root_parent]
    rfl

/-- The path to a non-root node extends the path to its parent by the edge
symbol. -/
theorem pathTo_parent (A : Array TrieNode) (hW : TrieWF A) (i p : Nat)
    (c : Char) (hi : i < A.size) (hp : (getN A i).parent = some p)
    (hc : (getN A i).char = some c) :
    pathTo A i = pathTo A p ++ [c] := by
  have hplt : p < i := by
    by_cases hi0 : i = 0
    · subst hi0; rw [hW.root_parent] at hp; cases hp
    · obtain ⟨p', c', hp', _, hlt, _⟩ := hW.node_parent i (by omega) hi
      rw [hp] at hp'; cases hp'; exact hlt
  unfold pathTo
  cases hs : A.size with
  | zero => omega
  | succ m =>
    have h1 : chainF A (m + 1) i = c :: chainF A m p := by
      simp only [chainF, hp, hc]
    have h2 : chainF A m p = chainF A (m + 1) p :=
      chainF_agree A hW p m (m + 1) (by omega) (by omega)
    rw [h1, h2]
    simp

/-- Well-formed arenas have injective paths (the trie property). -/
theorem pathTo_inj (A : Array TrieNode) (hW : TrieWF A) :
    ∀ (i j : Nat), i < A.size → j < A.size → pathTo A i = pathTo A j →
      i = j := by
  intro i
  induction i using Nat.strong_induction_on with
  | _ i ih =>
    intro j hi hj heq
    by_cases hi0 : i = 0
    · subst hi0
      by_cases hj0 : j = 0
      · omega
      · obtain ⟨p, c, hp, hc, _, _⟩ := hW.node_parent j (by omega) hj
        rw [pathTo_root A hW, pathTo_parent A hW j p c hj hp hc] at heq
        simp at heq
    · by_cases hj0 : j = 0
      · subst hj0
        obtain ⟨p, c, hp, hc, _, _⟩ := hW.node_parent i (by omega) hi
        rw [pathTo_root A hW, pathTo_parent A hW i p c hi hp hc] at heq
        simp at heq
      · obtain ⟨p, c, hp, hc, hplt, hmem⟩ := hW.node_parent i (by omega) hi
        obtain ⟨q, d, hq, hd, hqlt, hmem'⟩ := hW.node_parent j (by omega) hj
        rw [pathTo_parent A hW i p c hi hp hc,
          pathTo_parent A hW j q d hj hq hd] at heq
        have hpq : pathTo A p = pathTo A q ∧ c = d := by
          constructor
          · have := congrArg (fun l => l.dropLast) heq
            simpa using this
          · have := congrArg (fun l => l.getLast?) heq
            simpa using this
        obtain ⟨hpath, hcd⟩ := hpq
        have hpqe : p = q := ih p hplt q (by omega) (by omega) hpath
        subst hpqe; subst hcd
        exact (hW.children_fun p (by omega) c c i j hmem hmem').mp rfl

/-! ## Extension lemmas -/

theorem findChild_some (n : TrieNode) (c : Char) (j : Nat)
    (h : findChild n c = some j) : (c, j) ∈ n.children := by
  unfold findChild at h
  cases hf : n.children.find? (fun p => p.1 == c) with
  | none => rw [hf] at h; cases h
  | some pr =>
    rw [hf] at h
    have hj : pr.2 = j := by simpa using h
    have hmem := List.mem_of_find?_eq_some hf
    have hc : pr.1 = c := by simpa using List.find?_some hf
    have hpr : pr = (c, j) := by
      cases pr; simp_all
    rw [← hpr]
    exact hmem

theorem findChild_none (n : TrieNode) (c : Char)
    (h : findChild n c = none) :
    ∀ d j, (d, j) ∈ n.children → d ≠ c := by
  intro d j hmem
  unfold findChild at h
  cases hf : n.children.find? (fun p => p.1 == c) with
  | some pr => rw [hf] at h; cases h
  | none =>
    have := List.find?_eq_none.mp hf (d, j) hmem
    simpa using this

theorem arenaExt_refl (A : Array TrieNode) : ArenaExt A A :=
  ⟨le_refl _, fun _ _ => rfl, fun _ _ => rfl, fun _ _ => rfl,
    fun j _ => ⟨[], (List.append_nil _).symm⟩, fun _ h h' => absurd h' (by omega)⟩

theorem arenaExt_trans (A B C : Array TrieNode) (h1 : ArenaExt A B)
    (h2 : ArenaExt B C) : ArenaExt A C := by
  refine ⟨le_trans h1.size_le h2.size_le, ?_, ?_, ?_, ?_, ?_⟩
  · intro j hj
    rw [h2.parent_eq j (lt_of_lt_of_le hj h1.size_le), h1.parent_eq j hj]
  · intro j hj
    rw [h2.char_eq j (lt_of_lt_of_le hj h1.size_le), h1.char_eq j hj]
  · intro j hj
    rw [h2.terms_eq j (lt_of_lt_of_le hj h1.size_le), h1.terms_eq j hj]
  · intro j hj
    obtain ⟨e1, he1⟩ := h1.children_ext j hj
    obtain ⟨e2, he2⟩ := h2.children_ext j (lt_of_lt_of_le hj h1.size_le)
    exact ⟨e1 ++ e2, by rw [he2, he1, List.append_assoc]⟩
  · intro j hj hj'
    by_cases hb : j < B.size
    · rw [h2.terms_eq j hb]
      exact h1.new_terms j hj hb
    · exact h2.new_terms j (by omega) hj'

/-- Paths of existing nodes survive any arena growth that keeps parents and
symbols. -/
theorem pathTo_preserve (A A' : Array TrieNode) (hW : TrieWF A)
    (hW' : TrieWF A') (hsz : A.size ≤ A'.size)
    (hpar : ∀ j, j < A.size → (getN A' j).parent = (getN A j).parent)
    (hchar : ∀ j, j < A.size → (getN A' j).char = (getN A j).char) :
    ∀ j, j < A.size → pathTo A' j = pathTo A j := by
  intro j
  induction j using Nat.strong_induction_on with
  | _ j ih =>
    intro hj
    by_cases hj0 : j = 0
    · subst hj0
      rw [pathTo_root A hW, pathTo_root A' hW']
    · obtain ⟨p, c, hp, hc, hplt, _⟩ := hW.node_parent j (by omega) hj
      have hp' : (getN A' j).parent = some p := by rw [hpar j hj, hp]
      have hc' : (getN A' j).char = some c := by rw [hchar j hj, hc]
      rw [pathTo_parent A hW j p c hj hp hc,
        pathTo_parent A' hW' j p c (by omega) hp' hc',
        ih p hplt (by omega)]

/-- Effect of creating one fresh child (`TrieNode(parent=node, char=char)`
followed by `add_child`): arena contents, well-formedness, extension and
paths. -/
theorem push_child_step (A : Array TrieNode) (i : Nat) (c : Char)
    (A2 : Array TrieNode) (hW : TrieWF A) (hi : i < A.size)
    (hnone : findChild (getN A i) c = none)
    (hA2 : A2 = (A.push ⟨some i, some c, [], []⟩).modify i
      (fun n => { n with children := n.children ++ [(c, A.size)] })) :
    A2.size = A.size + 1 ∧
      getN A2 i = { getN A i with
        children := (getN A i).children ++ [(c, A.size)] } ∧
      getN A2 A.size = ⟨some i, some c, [], []⟩ ∧
      (∀ j, j < A.size → j ≠ i → getN A2 j = getN A j) ∧
      TrieWF A2 ∧ ArenaExt A A2 ∧
      (∀ j, j < A.size → pathTo A2 j = pathTo A j) ∧
      pathTo A2 A.size = pathTo A i ++ [c] := by
  have hsz : A2.size = A.size + 1 := by
    rw [hA2, Array.size_modify, Array.size_push]
  have hgne : ∀ j, j < A.size → j ≠ i → getN A2 j = getN A j := by
    intro j hj hne
    rw [hA2, getN_modify, if_neg (by tauto), getN_push_lt A _ j hj]
  have hgi : getN A2 i = { getN A i with
      children := (getN A i).children ++ [(c, A.size)] } := by
    rw [hA2, getN_modify, if_pos ⟨rfl, by simp; omega⟩, getN_push_lt A _ i hi]
  have hgnew : getN A2 A.size = ⟨some i, some c, [], []⟩ := by
    rw [hA2, getN_modify, if_neg (by intro h; omega), getN_push_eq]
  have hpc : ∀ m, m < A.size →
      (getN A2 m).parent = (getN A m).parent ∧
      (getN A2 m).char = (getN A m).char ∧
      (getN A2 m).terms = (getN A m).terms := by
    intro m hm
    by_cases hmi : m = i
    · rw [hmi, hgi]
      exact ⟨rfl, rfl, rfl⟩
    · rw [hgne m hm hmi]
      exact ⟨rfl, rfl, rfl⟩
  have hchn : ∀ m, m < A.size → m ≠ i →
      (getN A2 m).children = (getN A m).children := by
    intro m hm hmi; rw [hgne m hm hmi]
  have hW2 : TrieWF A2 := by
    refine ⟨by omega, ?_, ?_, ?_, ?_, ?_, ?_⟩
    · rw [(hpc 0 hW.size_pos).1, hW.root_parent]
    · rw [(hpc 0 hW.size_pos).2.1, hW.root_char]
    · -- node_parent
      intro k hk1 hk2
      rw [hsz] at hk2
      by_cases hkA : k < A.size
      · obtain ⟨p, c', hp, hc', hplt, hmem⟩ := hW.node_parent k hk1 hkA
        refine ⟨p, c', by rw [(hpc k hkA).1, hp], by rw [(hpc k hkA).2.1, hc'],
          hplt, ?_⟩
        by_cases hpi : p = i
        · rw [hpi] at hmem
          rw [hpi, hgi]
          exact List.mem_append_left _ hmem
        · rw [hchn p (by omega) hpi]; exact hmem
      · have hkA' : k = A.size := by omega
        subst hkA'
        refine ⟨i, c, by rw [hgnew], by rw [hgnew], hi, ?_⟩
        rw [hgi]; simp only []
        exact List.mem_append_right _ (by simp)
    · -- children_wf
      intro k hk c' j hmem
      rw [hsz] at hk
      by_cases hki : k = i
      · rw [hki] at hmem ⊢
        rw [hgi] at hmem
        simp only [] at hmem
        rcases List.mem_append.mp hmem with hold | hnew
        · obtain ⟨hj1, hj2, hj3, hj4⟩ := hW.children_wf i hi c' j hold
          refine ⟨by omega, hj2, ?_, ?_⟩
          · rw [(hpc j hj1).1, hj3]
          · rw [(hpc j hj1).2.1, hj4]
        · have : c' = c ∧ j = A.size := by
            simpa [Prod.ext_iff] using hnew
          obtain ⟨hc', hj⟩ := this
          subst hc'; subst hj
          exact ⟨by omega, hi, by rw [hgnew], by rw [hgnew]⟩
      · by_cases hkA : k < A.size
        · rw [hchn k hkA hki] at hmem
          obtain ⟨hj1, hj2, hj3, hj4⟩ := hW.children_wf k hkA c' j hmem
          refine ⟨by omega, hj2, ?_, ?_⟩
          · rw [(hpc j hj1).1, hj3]
          · rw [(hpc j hj1).2.1, hj4]
        · have hkA' : k = A.size := by omega
          subst hkA'
          rw [hgnew] at hmem
          simp at hmem
    · -- children_fun
      intro k hk c' c'' j j' hm1 hm2
      rw [hsz] at hk
      by_cases hki : k = i
      · rw [hki] at hm1 hm2
        rw [hgi] at hm1 hm2
        simp only [] at hm1 hm2
        have hside : ∀ d m, (d, m) ∈ (getN A i).children ++ [(c, A.size)] →
            ((d, m) ∈ (getN A i).children ∧ d ≠ c ∧ m < A.size) ∨
              (d = c ∧ m = A.size) := by
          intro d m hdm
          rcases List.mem_append.mp hdm with hold | hnew
          · exact .inl ⟨hold, findChild_none _ _ hnone d m hold,
              (hW.children_wf i hi d m hold).1⟩
          · exact .inr (by simpa [Prod.ext_iff] using hnew)
        rcases hside c' j hm1 with ⟨h1, h1c, h1m⟩ | ⟨h1c, h1m⟩ <;>
          rcases hside c'' j' hm2 with ⟨h2, h2c, h2m⟩ | ⟨h2c, h2m⟩
        · exact hW.children_fun i hi c' c'' j j' h1 h2
        · subst h2c; subst h2m
          constructor
          · intro h; exact absurd h h1c
          · intro h; omega
        · subst h1c; subst h1m
          constructor
          · intro h; exact absurd h.symm h2c
          · intro h; omega
        · subst h1c; subst h1m; subst h2c; subst h2m
          simp
      · by_cases hkA : k < A.size
        · rw [hchn k hkA hki] at hm1 hm2
          exact hW.children_fun k hkA c' c'' j j' hm1 hm2
        · have hkA' : k = A.size := by omega
          subst hkA'
          rw [hgnew] at hm1
          simp at hm1
    · -- children_nodup
      intro k hk
      rw [hsz] at hk
      by_cases hki : k = i
      · rw [hki, hgi]
        simp only [List.map_append]
        rw [List.nodup_append]
        refine ⟨hW.children_nodup i hi, by simp, ?_⟩
        intro a ha hb
        simp at hb
        obtain ⟨⟨c', a'⟩, hca, ha2⟩ := List.mem_map.mp ha
        have := (hW.children_wf i hi c' a' hca).1
        simp at ha2
        omega
      · by_cases hkA : k < A.size
        · rw [hchn k hkA hki]
          exact hW.children_nodup k hkA
        · have hkA' : k = A.size := by omega
          rw [hkA', hgnew]
          simp
  have hext : ArenaExt A A2 := by
    refine ⟨by omega, fun j hj => (hpc j hj).1, fun j hj => (hpc j hj).2.1,
      fun j hj => (hpc j hj).2.2, ?_, ?_⟩
    · intro j hj
      by_cases hji : j = i
      · exact ⟨[(c, A.size)], by rw [hji, hgi]⟩
      · exact ⟨[], by rw [hchn j hj hji, List.append_nil]⟩
    · intro j hj hj'
      have : j = A.size := by omega
      subst this
      rw [hgnew]
  have hpaths : ∀ j, j < A.size → pathTo A2 j = pathTo A j :=
    pathTo_preserve A A2 hW hW2 (by omega) (fun j hj => (hpc j hj).1)
      (fun j hj => (hpc j hj).2.1)
  refine ⟨hsz, hgi, hgnew, hgne, hW2, hext, hpaths, ?_⟩
  rw [pathTo_parent A2 hW2 A.size i c (by omega) (by rw [hgnew])
    (by rw [hgnew]), hpaths i hi]

/-- Full specification of the walk/extend loop of `from_terms`: the arena
grows monotonically and stays well-formed, the returned node sits at the end
of the inserted path, fresh nodes sit strictly inside the inserted path, and
any node owning children either already had them or lies strictly above the
inserted path's end. -/
theorem insertChars_spec :
    ∀ (cs : List Char) (A : Array TrieNode) (i : Nat), TrieWF A → i < A.size →
      TrieWF (insertChars A i cs).1 ∧
      ArenaExt A (insertChars A i cs).1 ∧
      (insertChars A i cs).2 < (insertChars A i cs).1.size ∧
      pathTo (insertChars A i cs).1 (insertChars A i cs).2 = pathTo A i ++ cs ∧
      (∀ j, A.size ≤ j → j < (insertChars A i cs).1.size →
        ∃ m, 1 ≤ m ∧ m ≤ cs.length ∧
          pathTo (insertChars A i cs).1 j = pathTo A i ++ cs.take m) ∧
      (∀ j, j < (insertChars A i cs).1.size →
        (getN (insertChars A i cs).1 j).children ≠ [] →
        ((j < A.size ∧ (getN A j).children ≠ []) ∨
          (pathTo (insertChars A i cs).1 j).length <
            (pathTo A i).length + cs.length)) := by
  intro cs
  induction cs with
  | nil =>
    intro A i hW hi
    simp only [insertChars]
    refine ⟨hW, arenaExt_refl A, hi, by simp, ?_, ?_⟩
    · intro j h1 h2; omega
    · intro j hj hc; exact .inl ⟨hj, hc⟩
  | cons c cs' ih =>
    intro A i hW hi
    cases hfc : findChild (getN A i) c with
    | some j =>
      obtain ⟨hjs, hij, hpj, hcj⟩ := hW.children_wf i hi c j (findChild_some _ _ _ hfc)
      have hpathj : pathTo A j = pathTo A i ++ [c] :=
        pathTo_parent A hW j i c hjs hpj hcj
      have hred : insertChars A i (c :: cs') = insertChars A j cs' := by
        simp only [insertChars, hfc]
      obtain ⟨ihW, ihExt, ihIdx, ihPath, ihNew, ihCh⟩ := ih A j hW hjs
      rw [hred]
      refine ⟨ihW, ihExt, ihIdx, ?_, ?_, ?_⟩
      · rw [ihPath, hpathj, List.append_assoc]
        rfl
      · intro k h1 h2
        obtain ⟨m, hm1, hm2, hm3⟩ := ihNew k h1 h2
        refine ⟨m + 1, by omega, by simp; omega, ?_⟩
        rw [hm3, hpathj, List.take_succ_cons, List.append_assoc]
        rfl
      · intro k h1 h2
        rcases ihCh k h1 h2 with hl | hr
        · exact .inl hl
        · right
          rw [hpathj] at hr
          simp [List.length_append] at hr ⊢
          omega
    | none =>
      obtain ⟨hsz, hgi, hgnew, hgne, hW2, hext2, hpaths2, hpathnew⟩ :=
        push_child_step A i c _ hW hi hfc rfl
      have hred : insertChars A i (c :: cs') =
          insertChars ((A.push ⟨some i, some c, [], []⟩).modify i
            (fun n => { n with children := n.children ++ [(c, A.size)] }))
            A.size cs' := by
        simp only [insertChars, hfc]
      set A2 := (A.push ⟨some i, some c, [], []⟩).modify i
        (fun n => { n with children := n.children ++ [(c, A.size)] }) with hA2d
      have hiA2 : A.size < A2.size := by omega
      obtain ⟨ihW, ihExt, ihIdx, ihPath, ihNew, ihCh⟩ :=
        ih A2 A.size hW2 hiA2
      have hprev : ∀ k, k < A2.size →
          pathTo (insertChars A2 A.size cs').1 k = pathTo A2 k :=
        pathTo_preserve A2 _ hW2 ihW ihExt.size_le
          (fun k hk => ihExt.parent_eq k hk) (fun k hk => ihExt.char_eq k hk)
      rw [hred]
      refine ⟨ihW, arenaExt_trans A A2 _ hext2 ihExt, ihIdx, ?_, ?_, ?_⟩
      · rw [ihPath, hpathnew, List.append_assoc]
        rfl
      · intro k h1 h2
        by_cases hk2 : k < A2.size
        · have hkA : k = A.size := by omega
          refine ⟨1, by omega, by simp, ?_⟩
          rw [hkA, hprev A.size (by omega), hpathnew]
          rfl
        · obtain ⟨m, hm1, hm2, hm3⟩ := ihNew k (by omega) h2
          refine ⟨m + 1, by omega, by simp; omega, ?_⟩
          rw [hm3, hpathnew, List.take_succ_cons, List.append_assoc]
          rfl
      · intro k h1 h2
        rcases ihCh k h1 h2 with ⟨hkl, hkc⟩ | hr
        · -- children already present in A2
          by_cases hki : k = i
          · by_cases hold : (getN A i).children ≠ []
            · exact .inl ⟨by omega, by rw [hki]; exact hold⟩
            · right
              rw [hki, hprev i (by omega), hpaths2 i hi]
              simp only [List.length_cons]
              omega
          · by_cases hkA : k < A.size
            · rw [hgne k hkA hki] at hkc
              exact .inl ⟨hkA, hkc⟩
            · have hkA' : k = A.size := by omega
              rw [hkA'] at hkc
              rw [hgnew] at hkc
              simp at hkc
        · right
          rw [hpathnew] at hr
          simp [List.length_append] at hr ⊢
          omega

/-- `add_term` changes only the `terms` of the target node (set-union
semantics) and preserves shape, well-formedness and paths. -/
theorem addTerm_spec (A : Array TrieNode) (i : Nat) (t : List Char)
    (hW : TrieWF A) (hi : i < A.size) :
    (addTerm A i t).size = A.size ∧
      (∀ j, (getN (addTerm A i t) j).parent = (getN A j).parent ∧
        (getN (addTerm A i t) j).char = (getN A j).char ∧
        (getN (addTerm A i t) j).children = (getN A j).children) ∧
      TrieWF (addTerm A i t) ∧
      (∀ j, j < A.size → pathTo (addTerm A i t) j = pathTo A j) ∧
      (∀ j, j ≠ i → (getN (addTerm A i t) j).terms = (getN A j).terms) ∧
      t ∈ (getN (addTerm A i t) i).terms ∧
      (∀ t', t' ∈ (getN (addTerm A i t) i).terms →
        t' ∈ (getN A i).terms ∨ t' = t) ∧
      (∀ t', t' ∈ (getN A i).terms → t' ∈ (getN (addTerm A i t) i).terms) := by
  have hsz : (addTerm A i t).size = A.size := by
    unfold addTerm; rw [Array.size_modify]
  have hshape : ∀ j, (getN (addTerm A i t) j).parent = (getN A j).parent ∧
      (getN (addTerm A i t) j).char = (getN A j).char ∧
      (getN (addTerm A i t) j).children = (getN A j).children := by
    intro j
    unfold addTerm
    rw [getN_modify]
    by_cases h : i = j ∧ j < A.size
    · rw [if_pos h]; exact ⟨rfl, rfl, rfl⟩
    · rw [if_neg h]; exact ⟨rfl, rfl, rfl⟩
  have hti : getN (addTerm A i t) i = { getN A i with
      terms := if t ∈ (getN A i).terms then (getN A i).terms
        else (getN A i).terms ++ [t] } := by
    unfold addTerm
    rw [getN_modify, if_pos ⟨rfl, hi⟩]
  have htj : ∀ j, j ≠ i → (getN (addTerm A i t) j).terms = (getN A j).terms := by
    intro j hj
    unfold addTerm
    rw [getN_modify]
    by_cases h : i = j ∧ j < A.size
    · exact absurd h.1.symm hj
    · rw [if_neg h]
  have hW' : TrieWF (addTerm A i t) := by
    refine ⟨by omega, ?_, ?_, ?_, ?_, ?_, ?_⟩
    · rw [(hshape 0).1, hW.root_parent]
    · rw [(hshape 0).2.1, hW.root_char]
    · intro k h1 h2
      rw [hsz] at h2
      obtain ⟨p, c, hp, hc, hplt, hmem⟩ := hW.node_parent k h1 h2
      exact ⟨p, c, by rw [(hshape k).1, hp], by rw [(hshape k).2.1, hc], hplt,
        by rw [(hshape p).2.2]; exact hmem⟩
    · intro k hk c j hmem
      rw [hsz] at hk
      rw [(hshape k).2.2] at hmem
      obtain ⟨h1, h2, h3, h4⟩ := hW.children_wf k hk c j hmem
      exact ⟨by omega, h2, by rw [(hshape j).1, h3], by rw [(hshape j).2.1, h4]⟩
    · intro k hk c c' j j' hm1 hm2
      rw [hsz] at hk
      rw [(hshape k).2.2] at hm1 hm2
      exact hW.children_fun k hk c c' j j' hm1 hm2
    · intro k hk
      rw [hsz] at hk
      rw [(hshape k).2.2]
      exact hW.children_nodup k hk
  have hpaths : ∀ j, j < A.size → pathTo (addTerm A i t) j = pathTo A j :=
    pathTo_preserve A (addTerm A i t) hW hW' (by omega)
      (fun j _ => (hshape j).1) (fun j _ => (hshape j).2.1)
  refine ⟨hsz, hshape, hW', hpaths, htj, ?_, ?_, ?_⟩
  · rw [hti]
    simp only []
    by_cases h : t ∈ (getN A i).terms
    · rw [if_pos h]; exact h
    · rw [if_neg h]; simp
  · intro t' ht'
    rw [hti] at ht'
    simp only [] at ht'
    by_cases h : t ∈ (getN A i).terms
    · rw [if_pos h] at ht'; exact .inl ht'
    · rw [if_neg h] at ht'
      rcases List.mem_append.mp ht' with h1 | h1
      · exact .inl h1
      · exact .inr (by simpa using h1)
  · intro t' ht'
    rw [hti]
    simp only []
    by_cases h : t ∈ (getN A i).terms
    · rw [if_pos h]; exact ht'
    · rw [if_neg h]; exact List.mem_append_left _ ht'

/-- One step of `from_terms`' fold preserves the trie invariant, extending
the processed-terms list. -/
theorem from_terms_step (A : Array TrieNode) (ts : List (List Char)) (l : Nat)
    (t : List Char) (hInv : TrieInvP A ts l) :
    TrieInvP (addTerm (insertChars A 0 ((t.take l).reverse)).1
      (insertChars A 0 ((t.take l).reverse)).2 t) (ts ++ [t]) l := by
  have hcsl : ((t.take l).reverse).length ≤ l := by
    simp [List.length_take]
  obtain ⟨iW, iExt, iIdx, iPath, iNew, iCh⟩ :=
    insertChars_spec ((t.take l).reverse) A 0 hInv.wf hInv.wf.size_pos
  have hsize_le : A.size ≤ (insertChars A 0 ((t.take l).reverse)).1.size :=
    iExt.size_le
  have hroot : pathTo A 0 = [] := pathTo_root A hInv.wf
  rw [hroot, List.nil_append] at iPath
  obtain ⟨aSz, aShape, aW, aPaths, aTj, aTmem, aTsub, aTsup⟩ :=
    addTerm_spec (insertChars A 0 ((t.take l).reverse)).1
      (insertChars A 0 ((t.take l).reverse)).2 t iW iIdx
  have hAB : ∀ j, j < A.size →
      pathTo (insertChars A 0 ((t.take l).reverse)).1 j = pathTo A j :=
    pathTo_preserve A _ hInv.wf iW iExt.size_le iExt.parent_eq iExt.char_eq
  have hAC : ∀ j, j < A.size →
      pathTo (addTerm (insertChars A 0 ((t.take l).reverse)).1
        (insertChars A 0 ((t.take l).reverse)).2 t) j = pathTo A j := by
    intro j hj
    rw [aPaths j (lt_of_lt_of_le hj iExt.size_le), hAB j hj]
  refine ⟨aW, ?_, ?_, ?_, ?_⟩
  · -- path_pref
    intro i h1 h2
    rw [aSz] at h2
    by_cases hiA : i < A.size
    · obtain ⟨t', ht'm, ht'p⟩ := hInv.path_pref i h1 hiA
      exact ⟨t', List.mem_append_left _ ht'm, by rw [hAC i hiA]; exact ht'p⟩
    · obtain ⟨m, hm1, hm2, hm3⟩ := iNew i (by omega) h2
      rw [hroot, List.nil_append] at hm3
      refine ⟨t, List.mem_append_right _ (by simp), ?_⟩
      rw [aPaths i h2, hm3]
      exact List.take_prefix m _
  · -- terms_sub
    intro i h2 t' ht'
    rw [aSz] at h2
    by_cases hir : i = (insertChars A 0 ((t.take l).reverse)).2
    · rw [hir] at ht' ⊢
      rcases aTsub t' ht' with hB | hteq
      · by_cases hrA : (insertChars A 0 ((t.take l).reverse)).2 < A.size
        · rw [iExt.terms_eq _ hrA] at hB
          obtain ⟨hm, hp⟩ := hInv.terms_sub _ hrA t' hB
          exact ⟨List.mem_append_left _ hm, by rw [hAC _ hrA]; exact hp⟩
        · rw [iExt.new_terms _ (by omega) iIdx] at hB
          simp at hB
      · subst hteq
        exact ⟨List.mem_append_right _ (by simp),
          by rw [aPaths _ iIdx, iPath]⟩
    · rw [aTj i hir] at ht'
      by_cases hiA : i < A.size
      · rw [iExt.terms_eq i hiA] at ht'
        obtain ⟨hm, hp⟩ := hInv.terms_sub i hiA t' ht'
        exact ⟨List.mem_append_left _ hm, by rw [hAC i hiA]; exact hp⟩
      · rw [iExt.new_terms i (by omega) h2] at ht'
        simp at ht'
  · -- term_node
    intro t' ht'
    rcases List.mem_append.mp ht' with hold | hnew
    · obtain ⟨i, hiA, hip, him⟩ := hInv.term_node t' hold
      refine ⟨i, by omega, by rw [hAC i hiA]; exact hip, ?_⟩
      by_cases hir : i = (insertChars A 0 ((t.take l).reverse)).2
      · rw [hir]
        apply aTsup
        rw [← hir, iExt.terms_eq i hiA]
        exact him
      · rw [aTj i hir, iExt.terms_eq i hiA]
        exact him
    · have hteq : t' = t := by simpa using hnew
      exact ⟨(insertChars A 0 ((t.take l).reverse)).2, by omega,
        by rw [aPaths _ iIdx, iPath, hteq], by rw [hteq]; exact aTmem⟩
  · -- children_depth
    intro i h2 hch
    rw [aSz] at h2
    rw [(aShape i).2.2] at hch
    rcases iCh i h2 hch with ⟨hiA, hchA⟩ | hlen
    · rw [hAC i hiA]
      exact hInv.children_depth i hiA hchA
    · rw [aPaths i h2]
      rw [hroot] at hlen
      simp at hlen
      omega

/-- The trie invariant holds of every arena produced by `from_terms`'
fold, whatever terms were already processed. -/
theorem from_terms_fold (l : Nat) :
    ∀ (ts acc : List (List Char)) (A : Array TrieNode), TrieInvP A acc l →
      TrieInvP (ts.foldl (fun A t =>
        let r := insertChars A 0 ((t.take l).reverse)
        addTerm r.1 r.2 t) A) (acc ++ ts) l := by
  intro ts
  induction ts with
  | nil => intro acc A h; simpa using h
  | cons t ts' ih =>
    intro acc A h
    have hstep := from_terms_step A acc l t h
    have := ih (acc ++ [t]) _ hstep
    simpa using this

/-- The empty arena (just a root) satisfies the invariant for no terms. -/
theorem trieInvP_init (l : Nat) : TrieInvP #[rootNode] [] l := by
  have hg : getN #[rootNode] 0 = rootNode := rfl
  refine ⟨⟨by decide, by rw [hg]; rfl, by rw [hg]; rfl, ?_, ?_, ?_, ?_⟩, ?_, ?_, ?_, ?_⟩
  · intro i h1 h2; simp at h2; omega
  · intro i hi c j hmem
    simp at hi
    rw [hi] at hmem
    rw [hg] at hmem
    simp [rootNode] at hmem
  · intro i hi c c' j j' hm1 hm2
    simp at hi
    rw [hi] at hm1
    rw [hg] at hm1
    simp [rootNode] at hm1
  · intro i hi
    simp at hi
    rw [hi, hg]
    simp [rootNode]
  · intro i h1 h2; simp at h2; omega
  · intro i hi t ht
    simp at hi
    rw [hi] at ht
    rw [hg] at ht
    simp [rootNode] at ht
  · intro t ht; simp at ht
  · intro i hi hch
    simp at hi
    rw [hi] at hch
    rw [hg] at hch
    simp [rootNode] at hch

/-- The full trie invariant for `TrieNode.from_terms`. -/
theorem from_terms_inv (ts : List (List Char)) (l : Nat) :
    TrieInvP (TrieNode.from_terms ts l) ts l := by
  have := from_terms_fold l ts [] #[rootNode] (trieInvP_init l)
  simpa [TrieNode.from_terms] using this

/-! ## Trie shape (C6) -/

/-- C6 counterexample: with P = {"abc"} and ℓ = 3, the depth-1 node (index
1) has root-to-node path "c", which is not the reversed length-3 prefix
"cba" of any pattern (nor, reversed, a prefix of any pattern): interior
paths only spell proper prefixes of reversed pattern prefixes. -/
theorem trie_interior_path_counterexample :
    1 < (TrieNode.from_terms [['a', 'b', 'c']] 3).size ∧
      pathTo (TrieNode.from_terms [['a', 'b', 'c']] 3) 1 = ['c'] ∧
      (∀ t ∈ ([['a', 'b', 'c']] : List (List Char)),
        pathTo (TrieNode.from_terms [['a', 'b', 'c']] 3) 1 ≠ (t.take 3).reverse) ∧
      (∀ t ∈ ([['a', 'b', 'c']] : List (List Char)),
        ¬ (pathTo (TrieNode.from_terms [['a', 'b', 'c']] 3) 1).reverse <+: t) := by
  refine ⟨by decide, by decide, ?_, ?_⟩
  · intro t ht
    have : t = ['a', 'b', 'c'] := by simpa using ht
    subst this
    decide
  · intro t ht
    have : t = ['a', 'b', 'c'] := by simpa using ht
    subst this
    decide

/-- C6 amended: in the trie built from a valid pattern set P with prefix
length ℓ: every non-root node's path is a prefix of the reversed length-ℓ
prefix of some pattern (so depth ≤ ℓ); every node at depth ℓ carries
non-empty terms and no children; every pattern appears in the terms of the
node spelling its reversed length-ℓ prefix; paths are injective, so two
patterns sharing a reversed prefix share the path and both appear in that
terminal node's terms. -/
theorem trie_shape (P : List (List Char)) (l : Nat) (hP : P ≠ [])
    (hlen : ∀ t ∈ P, l ≤ t.length) :
    (∀ i, 1 ≤ i → i < (TrieNode.from_terms P l).size →
      (∃ t ∈ P, pathTo (TrieNode.from_terms P l) i <+: (t.take l).reverse) ∧
        (pathTo (TrieNode.from_terms P l) i).length ≤ l) ∧
    (∀ i, i < (TrieNode.from_terms P l).size →
      (pathTo (TrieNode.from_terms P l) i).length = l →
      (getN (TrieNode.from_terms P l) i).terms ≠ [] ∧
        (getN (TrieNode.from_terms P l) i).children = []) ∧
    (∀ t ∈ P, ∃ i, i < (TrieNode.from_terms P l).size ∧
      pathTo (TrieNode.from_terms P l) i = (t.take l).reverse ∧
      t ∈ (getN (TrieNode.from_terms P l) i).terms) ∧
    (∀ i j, i < (TrieNode.from_terms P l).size →
      j < (TrieNode.from_terms P l).size →
      pathTo (TrieNode.from_terms P l) i = pathTo (TrieNode.from_terms P l) j →
      i = j) ∧
    (∀ t t', t ∈ P → t' ∈ P → t.take l = t'.take l →
      ∃ i, i < (TrieNode.from_terms P l).size ∧
        t ∈ (getN (TrieNode.from_terms P l) i).terms ∧
        t' ∈ (getN (TrieNode.from_terms P l) i).terms) := by
  have hInv := from_terms_inv P l
  have hinj := pathTo_inj (TrieNode.from_terms P l) hInv.wf
  have hfull : ∀ i, i < (TrieNode.from_terms P l).size →
      (pathTo (TrieNode.from_terms P l) i).length = l →
      ∃ t ∈ P, pathTo (TrieNode.from_terms P l) i = (t.take l).reverse := by
    intro i hi hdep
    by_cases hi0 : i = 0
    · subst hi0
      rw [pathTo_root _ hInv.wf] at hdep ⊢
      obtain ⟨t, ht⟩ := List.exists_mem_of_ne_nil P hP
      refine ⟨t, ht, ?_⟩
      have : l = 0 := by simpa using hdep.symm
      simp [this]
    · obtain ⟨t, htm, htp⟩ := hInv.path_pref i (by omega) hi
      refine ⟨t, htm, List.IsPrefix.eq_of_length htp ?_⟩
      rw [hdep]
      simp [List.length_take]
      exact hlen t htm
  refine ⟨?_, ?_, hInv.term_node, hinj, ?_⟩
  · intro i h1 h2
    obtain ⟨t, htm, htp⟩ := hInv.path_pref i h1 h2
    refine ⟨⟨t, htm, htp⟩, ?_⟩
    have := htp.length_le
    simp [List.length_take] at this
    omega
  · intro i hi hdep
    obtain ⟨t, htm, htp⟩ := hfull i hi hdep
    obtain ⟨j, hj, hjp, hjt⟩ := hInv.term_node t htm
    have hij : i = j := hinj i j hi hj (by rw [htp, hjp])
    constructor
    · rw [hij]
      intro hc
      rw [hc] at hjt
      simp at hjt
    · by_contra hc
      have := hInv.children_depth i hi hc
      omega
  · intro t t' htm htm' heq
    obtain ⟨i, hi, hip, hit⟩ := hInv.term_node t htm
    obtain ⟨j, hj, hjp, hjt⟩ := hInv.term_node t' htm'
    have hij : i = j := hinj i j hi hj (by rw [hip, hjp, heq])
    exact ⟨i, hi, hit, by rw [hij]; exact hjt⟩

/-- Witness for `trie_shape` at P = {"ab", "ac"}, ℓ = 2, t = "ab". -/
theorem trie_shape_witness :
    ∃ i, i < (TrieNode.from_terms [['a', 'b'], ['a', 'c']] 2).size ∧
      pathTo (TrieNode.from_terms [['a', 'b'], ['a', 'c']] 2) i =
        ((['a', 'b'] : List Char).take 2).reverse ∧
      (['a', 'b'] : List Char) ∈
        (getN (TrieNode.from_terms [['a', 'b'], ['a', 'c']] 2) i).terms :=
  (trie_shape [['a', 'b'], ['a', 'c']] 2 (by decide)
    (by intro t ht; fin_cases ht <;> decide)).2.2.1 ['a', 'b'] (by decide)

/-! ## Breadth-first traversal completeness -/

theorem ancChainF_agree (A : Array TrieNode) (hW : TrieWF A) :
    ∀ (i fuel fuel' : Nat), i < fuel → i < fuel' →
      ancChainF A fuel i = ancChainF A fuel' i := by
  intro i
  induction i using Nat.strong_induction_on with
  | _ i ih =>
    intro fuel fuel' hf hf'
    cases fuel with
    | zero => omega
    | succ m =>
      cases fuel' with
      | zero => omega
      | succ m' =>
        simp only [ancChainF]
        cases hp : (getN A i).parent with
        | none => rfl
        | some p =>
          have hplt : p < i := by
            by_cases hi0 : i = 0
            · subst hi0; rw [hW.root_parent] at hp; cases hp
            · by_cases his : i < A.size
              · obtain ⟨p', c', hp', _, hlt, _⟩ :=
                  hW.node_parent i (by omega) his
                rw [hp] at hp'; cases hp'; exact hlt
              · rw [getN_oob A i (by omega)] at hp; cases hp
          simp only []
          rw [ih p hplt m m' (by omega) (by omega)]

theorem anc_self (A : Array TrieNode) (i : Nat) : i ∈ ancestorsOf A i := by
  unfold ancestorsOf ancChainF
  simp

theorem anc_cons (A : Array TrieNode) (hW : TrieWF A) (i p : Nat)
    (hp : (getN A i).parent = some p) (hplt : p < i) :
    ancestorsOf A i = i :: ancestorsOf A p := by
  unfold ancestorsOf
  rw [show ancChainF A (i + 1) i = i :: ancChainF A i p from by
    simp only [ancChainF, hp]]
  congr 1
  exact ancChainF_agree A hW p i (p + 1) hplt (by omega)

theorem anc_root (A : Array TrieNode) (hW : TrieWF A) :
    ancestorsOf A 0 = [0] := by
  unfold ancestorsOf
  simp only [ancChainF, hW.root_parent]

theorem anc_le (A : Array TrieNode) (hW : TrieWF A) :
    ∀ (i a : Nat), a ∈ ancestorsOf A i → a ≤ i := by
  intro i
  induction i using Nat.strong_induction_on with
  | _ i ih =>
    intro a ha
    cases hp : (getN A i).parent with
    | none =>
      unfold ancestorsOf at ha
      cases hi : i with
      | zero =>
        rw [hi] at ha
        simp only [ancChainF, hW.root_parent] at ha
        simp at ha
        omega
      | succ m =>
        rw [hi] at ha hp
        simp only [ancChainF, hp] at ha
        simp at ha
        omega
    | some p =>
      have hplt : p < i := by
        by_cases hi0 : i = 0
        · subst hi0; rw [hW.root_parent] at hp; cases hp
        · by_cases his : i < A.size
          · obtain ⟨p', c', hp', _, hlt, _⟩ := hW.node_parent i (by omega) his
            rw [hp] at hp'; cases hp'; exact hlt
          · rw [getN_oob A i (by omega)] at hp; cases hp
      rw [anc_cons A hW i p hp hplt] at ha
      rcases List.mem_cons.mp ha with h | h
      · omega
      · have := ih p hplt a h
        omega

theorem anc_root_mem (A : Array TrieNode) (hW : TrieWF A) :
    ∀ (i : Nat), i < A.size → 0 ∈ ancestorsOf A i := by
  intro i
  induction i using Nat.strong_induction_on with
  | _ i ih =>
    intro hi
    by_cases hi0 : i = 0
    · subst hi0; rw [anc_root A hW]; simp
    · obtain ⟨p, c, hp, _, hplt, _⟩ := hW.node_parent i (by omega) hi
      rw [anc_cons A hW i p hp hplt]
      exact List.mem_cons_of_mem _ (ih p hplt (by omega))

/-- If `j` lies on the ancestor chain of `m` and is not the root, then `j`'s
parent lies on the chain too. -/
theorem anc_parent_mem (A : Array TrieNode) (hW : TrieWF A) :
    ∀ (m j p : Nat), m < A.size → j ∈ ancestorsOf A m → 1 ≤ j →
      (getN A j).parent = some p → p ∈ ancestorsOf A m := by
  intro m
  induction m using Nat.strong_induction_on with
  | _ m ih =>
    intro j p hm hj hj1 hp
    by_cases hm0 : m = 0
    · subst hm0
      rw [anc_root A hW] at hj
      simp at hj
      omega
    · obtain ⟨q, c, hq, _, hqlt, _⟩ := hW.node_parent m (by omega) hm
      rw [anc_cons A hW m q hq hqlt] at hj ⊢
      rcases List.mem_cons.mp hj with h | h
      · rw [h, hq] at hp
        have hqp : q = p := Option.some.inj hp
        rw [← hqp]
        exact List.mem_cons_of_mem _ (anc_self A q)
      · exact List.mem_cons_of_mem _ (ih q hqlt j p (by omega) h hj1 hp)

/-- If a strict ancestor `h` of `m` is given, some child of `h` is also an
ancestor of `m`. -/
theorem anc_child_step (A : Array TrieNode) (hW : TrieWF A) :
    ∀ (m h : Nat), m < A.size → h ∈ ancestorsOf A m → h ≠ m →
      ∃ j, j ∈ (getN A h).children.map (fun pr => pr.2) ∧
        j ∈ ancestorsOf A m := by
  intro m
  induction m using Nat.strong_induction_on with
  | _ m ih =>
    intro h hm hanc hne
    by_cases hm0 : m = 0
    · subst hm0
      rw [anc_root A hW] at hanc
      simp at hanc
      exact absurd hanc hne
    · obtain ⟨q, c, hq, hc, hqlt, hmem⟩ := hW.node_parent m (by omega) hm
      rw [anc_cons A hW m q hq hqlt] at hanc
      rcases List.mem_cons.mp hanc with he | he
      · exact absurd he hne
      · by_cases hhq : h = q
        · refine ⟨m, ?_, anc_self A m⟩
          rw [hhq]
          exact List.mem_map.mpr ⟨(c, m), hmem, rfl⟩
        · obtain ⟨j, hj1, hj2⟩ := ih q hqlt h (by omega) he hhq
          exact ⟨j, hj1, by
            rw [anc_cons A hW m q hq hqlt]
            exact List.mem_cons_of_mem _ hj2⟩

theorem filter_sub_length (l : List Nat) (p p' : Nat → Bool)
    (himp : ∀ m ∈ l, p' m = true → p m = true) :
    (l.filter p').length ≤ (l.filter p).length := by
  induction l with
  | nil => simp
  | cons x t ih =>
    have iht := ih (fun m hm => himp m (List.mem_cons_of_mem _ hm))
    cases hx' : p' x with
    | true =>
      have hx := himp x (by simp) hx'
      simp [List.filter_cons, hx, hx']
      omega
    | false =>
      cases hx : p x with
      | true => simp [List.filter_cons, hx, hx']; omega
      | false => simp [List.filter_cons, hx, hx']; omega

theorem filter_strict_length (l : List Nat) (p p' : Nat → Bool)
    (himp : ∀ m ∈ l, p' m = true → p m = true) (h : Nat) (hmem : h ∈ l)
    (hp : p h = true) (hp' : p' h = false) :
    (l.filter p').length < (l.filter p).length := by
  induction l with
  | nil => simp at hmem
  | cons x t ih =>
    have himpt : ∀ m ∈ t, p' m = true → p m = true :=
      fun m hm => himp m (List.mem_cons_of_mem _ hm)
    by_cases hxh : x = h
    · have hpx : p x = true := by rw [hxh]; exact hp
      have hpx' : p' x = false := by rw [hxh]; exact hp'
      have hsub := filter_sub_length t p p' himpt
      simp [List.filter_cons, hpx, hpx']
      omega
    · have hmemt : h ∈ t := by
        rcases List.mem_cons.mp hmem with he | he
        · exact absurd he.symm hxh
        · exact he
      have iht := ih himpt hmemt
      cases hx' : p' x with
      | true =>
        have hx := himp x (by simp) hx'
        simp [List.filter_cons, hx, hx']
        omega
      | false =>
        cases hx : p x with
        | true => simp [List.filter_cons, hx, hx']; omega
        | false => simp [List.filter_cons, hx, hx']; omega

/-- If a node is in the closure of the queue, the potential is positive. -/
theorem phi_pos (A : Array TrieNode) (q : List Nat) (i : Nat)
    (hi : i < A.size) (hc : inClosure A q i) : 1 ≤ phiQ A q := by
  unfold phiQ
  have : i ∈ (List.range A.size).filter (fun m => decide (inClosure A q m)) :=
    List.mem_filter.mpr ⟨List.mem_range.mpr hi, by simpa using hc⟩
  have := List.length_pos.mpr (List.ne_nil_of_mem this)
  omega

/-- The breadth-first traversal with enough fuel reaches every node in the
closure of a duplicate-free, pairwise non-ancestral queue. -/
theorem bfs_mem (A : Array TrieNode) (hW : TrieWF A) :
    ∀ (fuel : Nat) (q : List Nat) (i : Nat),
      (∀ x ∈ q, x < A.size) → q.Nodup →
      (∀ a b, a ∈ q → b ∈ q → a ∈ ancestorsOf A b → a = b) →
      i < A.size → inClosure A q i → phiQ A q ≤ fuel →
      i ∈ bfsAux A fuel q := by
  intro fuel
  induction fuel with
  | zero =>
    intro q i hval hnd hna hi hc hphi
    have := phi_pos A q i hi hc
    omega
  | succ fuel ih =>
    intro q i hval hnd hna hi hc hphi
    cases q with
    | nil => obtain ⟨a, ha, _⟩ := hc; simp at ha
    | cons h rest =>
      simp only [bfsAux]
      by_cases hih : i = h
      · rw [hih]; simp
      · apply List.mem_cons_of_mem
        have hhs : h < A.size := hval h (by simp)
        have hchval : ∀ x ∈ (getN A h).children.map (fun pr => pr.2),
            x < A.size := by
          intro x hx
          obtain ⟨⟨cx, jx⟩, hcx, hjx⟩ := List.mem_map.mp hx
          simp at hjx
          rw [← hjx]
          exact (hW.children_wf h hhs cx jx hcx).1
        have hchgt : ∀ x ∈ (getN A h).children.map (fun pr => pr.2),
            h < x := by
          intro x hx
          obtain ⟨⟨cx, jx⟩, hcx, hjx⟩ := List.mem_map.mp hx
          simp at hjx
          rw [← hjx]
          exact (hW.children_wf h hhs cx jx hcx).2.1
        have hchpar : ∀ x ∈ (getN A h).children.map (fun pr => pr.2),
            (getN A x).parent = some h := by
          intro x hx
          obtain ⟨⟨cx, jx⟩, hcx, hjx⟩ := List.mem_map.mp hx
          simp at hjx
          rw [← hjx]
          exact (hW.children_wf h hhs cx jx hcx).2.2.1
        have hanc_of_child : ∀ x ∈ (getN A h).children.map (fun pr => pr.2),
            h ∈ ancestorsOf A x := by
          intro x hx
          rw [anc_cons A hW x h (hchpar x hx) (hchgt x hx)]
          exact List.mem_cons_of_mem _ (anc_self A h)
        have hchrest : ∀ x ∈ (getN A h).children.map (fun pr => pr.2),
            x ∉ rest := by
          intro x hx hxr
          have := hna h x (by simp) (by simp [hxr]) (hanc_of_child x hx)
          have := hchgt x hx
          omega
        have hval' : ∀ x ∈ rest ++ (getN A h).children.map (fun pr => pr.2),
            x < A.size := by
          intro x hx
          rcases List.mem_append.mp hx with hx | hx
          · exact hval x (List.mem_cons_of_mem _ hx)
          · exact hchval x hx
        have hnd' : (rest ++ (getN A h).children.map (fun pr => pr.2)).Nodup := by
          rw [List.nodup_append]
          exact ⟨(List.nodup_cons.mp hnd).2, hW.children_nodup h hhs,
            fun a ha hb => hchrest a hb ha⟩
        have hna' : ∀ a b, a ∈ rest ++ (getN A h).children.map (fun pr => pr.2) →
            b ∈ rest ++ (getN A h).children.map (fun pr => pr.2) →
            a ∈ ancestorsOf A b → a = b := by
          intro a b ha hb hanc
          have hhrest : h ∉ rest := (List.nodup_cons.mp hnd).1
          rcases List.mem_append.mp ha with ha | ha <;>
            rcases List.mem_append.mp hb with hb | hb
          · exact hna a b (List.mem_cons_of_mem _ ha)
              (List.mem_cons_of_mem _ hb) hanc
          · -- a in rest, b a child of h
            rw [anc_cons A hW b h (hchpar b hb) (hchgt b hb)] at hanc
            rcases List.mem_cons.mp hanc with he | he
            · exact he
            · have := hna a h (List.mem_cons_of_mem _ ha) (by simp) he
              exact absurd (this ▸ ha) hhrest
          · -- a a child of h, b in rest
            have hbs : b < A.size := hval b (List.mem_cons_of_mem _ hb)
            have h1a : 1 ≤ a := by have := hchgt a ha; omega
            have hham : h ∈ ancestorsOf A b :=
              anc_parent_mem A hW b a h hbs hanc h1a (hchpar a ha)
            have := hna h b (by simp) (List.mem_cons_of_mem _ hb) hham
            exact absurd (this ▸ hb) hhrest
          · -- both children of h
            rw [anc_cons A hW b h (hchpar b hb) (hchgt b hb)] at hanc
            rcases List.mem_cons.mp hanc with he | he
            · exact he
            · have := anc_le A hW h a he
              have := hchgt a ha
              omega
        have hc' : inClosure A (rest ++ (getN A h).children.map (fun pr => pr.2)) i := by
          obtain ⟨a, ha, hanc⟩ := hc
          rcases List.mem_cons.mp ha with he | he
          · obtain ⟨j, hj1, hj2⟩ :=
              anc_child_step A hW i h hi (he ▸ hanc) (fun hh => hih hh.symm)
            exact ⟨j, List.mem_append_right _ hj1, hj2⟩
          · exact ⟨a, List.mem_append_left _ he, hanc⟩
        have hphi' : phiQ A (rest ++ (getN A h).children.map (fun pr => pr.2)) ≤ fuel := by
          have hstrict := filter_strict_length (List.range A.size)
            (fun m => decide (inClosure A (h :: rest) m))
            (fun m => decide (inClosure A (rest ++ (getN A h).children.map (fun pr => pr.2)) m))
            ?_ h (List.mem_range.mpr hhs)
            (by rw [decide_eq_true_eq]; exact ⟨h, by simp, anc_self A h⟩) ?_
          · unfold phiQ at hphi ⊢
            omega
          · -- pointwise implication on range members
            intro m hm hdec
            rw [decide_eq_true_eq] at hdec ⊢
            obtain ⟨a, ha, hanc⟩ := hdec
            rcases List.mem_append.mp ha with ha | ha
            · exact ⟨a, List.mem_cons_of_mem _ ha, hanc⟩
            · have hms : m < A.size := List.mem_range.mp hm
              have h1a : 1 ≤ a := by have := hchgt a ha; omega
              exact ⟨h, by simp,
                anc_parent_mem A hW m a h hms hanc h1a (hchpar a ha)⟩
          · -- h is not in the closure of the new queue
            rw [decide_eq_false_iff_not]
            rintro ⟨a, ha, hanc⟩
            rcases List.mem_append.mp ha with ha | ha
            · have := hna a h (List.mem_cons_of_mem _ ha) (by simp) hanc
              exact (List.nodup_cons.mp hnd).1 (this ▸ ha)
            · have := anc_le A hW h a hanc
              have := hchgt a ha
              omega
        exact ih _ i hval' hnd' hna' hi hc' hphi'

/-- Every node of a well-formed trie is visited by `TrieNode.__iter__`. -/
theorem trieBFS_complete (A : Array TrieNode) (hW : TrieWF A) :
    ∀ i, i < A.size → i ∈ trieBFS A := by
  intro i hi
  unfold trieBFS
  apply bfs_mem A hW A.size [0] i
  · intro x hx; simp at hx; rw [hx]; exact hW.size_pos
  · simp
  · intro a b ha hb _
    simp at ha hb; rw [ha, hb]
  · exact hi
  · exact ⟨0, by simp, anc_root_mem A hW i hi⟩
  · unfold phiQ
    have := List.length_filter_le (fun m => decide (inClosure A [0] m))
      (List.range A.size)
    simpa using this

/-! ## Primary edges of the oracle -/

theorem updEdges_at (e : Nat → Char → Option Nat) (k : Nat) (c : Char)
    (v : Nat) : updEdges e k c v k c = some v := by
  unfold updEdges; simp

theorem updEdges_ne (e : Nat → Char → Option Nat) (k : Nat) (c : Char)
    (v : Nat) (k' : Nat) (c' : Char) (h : ¬(k' = k ∧ c' = c)) :
    updEdges e k c v k' c' = e k' c' := by
  unfold updEdges; rw [if_neg h]

/-- In a well-formed trie, (parent, symbol) determines the node. -/
theorem parent_char_inj (A : Array TrieNode) (hW : TrieWF A) (i k : Nat)
    (hi1 : 1 ≤ i) (hi2 : i < A.size) (hk1 : 1 ≤ k) (hk2 : k < A.size)
    (hpeq : (getN A k).parent.getD 0 = (getN A i).parent.getD 0)
    (hceq : (getN A k).char.getD 'a' = (getN A i).char.getD 'a') : k = i := by
  obtain ⟨p, c, hp, hc, _, hmem⟩ := hW.node_parent i hi1 hi2
  obtain ⟨p', c', hp', hc', _, hmem'⟩ := hW.node_parent k hk1 hk2
  rw [hp] at hpeq
  rw [hp'] at hpeq
  rw [hc] at hceq
  rw [hc'] at hceq
  simp at hpeq hceq
  rw [hpeq] at hmem'
  rw [hceq] at hmem'
  exact (hW.children_fun p (by
    have := hW.children_wf p
    by_cases hps : p < A.size
    · exact hps
    · rw [getN_oob A p (by omega)] at hmem
      simp [rootNode] at hmem) c c k i hmem' hmem).mp rfl

/-- After the unconditional primary write of `processNode`, the guarded
supplementary writes cannot overwrite a key that already holds a value. -/
theorem processNode_from_e1 (A : Array TrieNode) (base : Nat)
    (st : GraphSt) (k i : Nat)
    (he1 : (updEdges st.edges (base + (getN A k).parent.getD 0)
      ((getN A k).char.getD 'a') k) (base + (getN A i).parent.getD 0)
      ((getN A i).char.getD 'a') = some i) :
    (processNode A base st k).edges (base + (getN A i).parent.getD 0)
      ((getN A i).char.getD 'a') = some i := by
  unfold processNode
  simp only []
  by_cases hC1 : navigateT (updEdges st.edges
        (base + (getN A k).parent.getD 0) ((getN A k).char.getD 'a') k) base
        (collectTransitions A base st.dest A.size
          ((getN A k).parent.getD 0)) 0 ≠ 0 ∧
      (updEdges st.edges (base + (getN A k).parent.getD 0)
        ((getN A k).char.getD 'a') k)
        (base + navigateT (updEdges st.edges
          (base + (getN A k).parent.getD 0) ((getN A k).char.getD 'a') k) base
          (collectTransitions A base st.dest A.size
            ((getN A k).parent.getD 0)) 0)
        ((getN A k).char.getD 'a') = none
  · rw [if_pos hC1]
    simp only []
    have hst1 : (updEdges (updEdges st.edges
        (base + (getN A k).parent.getD 0) ((getN A k).char.getD 'a') k)
        (base + navigateT (updEdges st.edges
          (base + (getN A k).parent.getD 0) ((getN A k).char.getD 'a') k) base
          (collectTransitions A base st.dest A.size
            ((getN A k).parent.getD 0)) 0)
        ((getN A k).char.getD 'a') k) (base + (getN A i).parent.getD 0)
        ((getN A i).char.getD 'a') = some i := by
      by_cases hcol2 : (base + (getN A i).parent.getD 0 =
          base + navigateT (updEdges st.edges
            (base + (getN A k).parent.getD 0) ((getN A k).char.getD 'a') k) base
            (collectTransitions A base st.dest A.size
              ((getN A k).parent.getD 0)) 0 ∧
          (getN A i).char.getD 'a' = (getN A k).char.getD 'a')
      · rw [hcol2.1, hcol2.2] at he1
        rw [hC1.2] at he1
        cases he1
      · rw [updEdges_ne _ _ _ _ _ _ hcol2]
        exact he1
    by_cases hC2 : (updEdges (updEdges st.edges
        (base + (getN A k).parent.getD 0) ((getN A k).char.getD 'a') k)
        (base + navigateT (updEdges st.edges
          (base + (getN A k).parent.getD 0) ((getN A k).char.getD 'a') k) base
          (collectTransitions A base st.dest A.size
            ((getN A k).parent.getD 0)) 0)
        ((getN A k).char.getD 'a') k) (base + 0) ((getN A k).char.getD 'a')
        = none
    · rw [if_pos hC2]
      simp only []
      by_cases hcol3 : (base + (getN A i).parent.getD 0 = base + 0 ∧
          (getN A i).char.getD 'a' = (getN A k).char.getD 'a')
      · rw [hcol3.1, hcol3.2] at hst1
        rw [hC2] at hst1
        cases hst1
      · rw [updEdges_ne _ _ _ _ _ _ hcol3]
        exact hst1
    · rw [if_neg hC2]
      exact hst1
  · rw [if_neg hC1]
    simp only []
    by_cases hC2 : (updEdges st.edges (base + (getN A k).parent.getD 0)
        ((getN A k).char.getD 'a') k) (base + 0) ((getN A k).char.getD 'a')
        = none
    · rw [if_pos hC2]
      simp only []
      by_cases hcol3 : (base + (getN A i).parent.getD 0 = base + 0 ∧
          (getN A i).char.getD 'a' = (getN A k).char.getD 'a')
      · rw [hcol3.1, hcol3.2] at he1
        rw [hC2] at he1
        cases he1
      · rw [updEdges_ne _ _ _ _ _ _ hcol3]
        exact he1
    · rw [if_neg hC2]
      exact he1

/-- Once the transition table holds `some i` at node `i`'s primary key,
processing any node leaves that entry intact (primary writes can only
re-write the same value, supplementary writes are guarded). -/
theorem processNode_preserve (A : Array TrieNode) (base : Nat) (hW : TrieWF A)
    (st : GraphSt) (k i : Nat) (hk1 : 1 ≤ k) (hk2 : k < A.size)
    (hi1 : 1 ≤ i) (hi2 : i < A.size)
    (hprev : st.edges (base + (getN A i).parent.getD 0)
      ((getN A i).char.getD 'a') = some i) :
    (processNode A base st k).edges (base + (getN A i).parent.getD 0)
      ((getN A i).char.getD 'a') = some i := by
  apply processNode_from_e1
  by_cases hcol : (base + (getN A i).parent.getD 0 =
      base + (getN A k).parent.getD 0 ∧
      (getN A i).char.getD 'a' = (getN A k).char.getD 'a')
  · have hki : k = i := parent_char_inj A hW i k hi1 hi2 hk1 hk2
      (by omega) hcol.2.symm
    rw [hcol.1, hcol.2, updEdges_at, hki]
  · rw [updEdges_ne _ _ _ _ _ _ hcol]
    exact hprev

/-- Processing node `k` itself establishes its primary edge. -/
theorem processNode_primary (A : Array TrieNode) (base : Nat)
    (st : GraphSt) (k : Nat) :
    (processNode A base st k).edges (base + (getN A k).parent.getD 0)
      ((getN A k).char.getD 'a') = some k := by
  apply processNode_from_e1
  exact updEdges_at _ _ _ _

theorem foldl_preserve_primary (A : Array TrieNode) (base : Nat)
    (hW : TrieWF A) :
    ∀ (L : List Nat) (st : GraphSt) (i : Nat),
      (∀ x ∈ L, 1 ≤ x ∧ x < A.size) → 1 ≤ i → i < A.size →
      st.edges (base + (getN A i).parent.getD 0)
        ((getN A i).char.getD 'a') = some i →
      (L.foldl (processNode A base) st).edges
        (base + (getN A i).parent.getD 0) ((getN A i).char.getD 'a') = some i := by
  intro L
  induction L with
  | nil => intro st i _ _ _ h; simpa using h
  | cons k L' ih =>
    intro st i hL hi1 hi2 h
    simp only [List.foldl_cons]
    apply ih _ i (fun x hx => hL x (List.mem_cons_of_mem _ hx)) hi1 hi2
    exact processNode_preserve A base hW st k i (hL k (by simp)).1
      (hL k (by simp)).2 hi1 hi2 h

theorem foldl_establish_primary (A : Array TrieNode) (base : Nat)
    (hW : TrieWF A) :
    ∀ (L : List Nat) (st : GraphSt) (i : Nat),
      (∀ x ∈ L, 1 ≤ x ∧ x < A.size) → i ∈ L →
      (L.foldl (processNode A base) st).edges
        (base + (getN A i).parent.getD 0) ((getN A i).char.getD 'a') = some i := by
  intro L
  induction L with
  | nil => intro st i _ h; simp at h
  | cons k L' ih =>
    intro st i hL hi
    simp only [List.foldl_cons]
    rcases List.mem_cons.mp hi with he | he
    · apply foldl_preserve_primary A base hW L' _ i
        (fun x hx => hL x (List.mem_cons_of_mem _ hx))
        (he ▸ (hL k (by simp)).1) (he ▸ (hL k (by simp)).2)
      rw [he]
      exact processNode_primary A base st k
    · exact ih _ i (fun x hx => hL x (List.mem_cons_of_mem _ hx)) he

theorem bfsAux_members (A : Array TrieNode) (hW : TrieWF A) :
    ∀ (fuel : Nat) (q : List Nat), (∀ x ∈ q, x < A.size) →
      ∀ y ∈ bfsAux A fuel q, y < A.size := by
  intro fuel
  induction fuel with
  | zero => intro q _ y hy; simp [bfsAux] at hy
  | succ fuel ih =>
    intro q hq y hy
    cases q with
    | nil => simp [bfsAux] at hy
    | cons h rest =>
      simp only [bfsAux] at hy
      rcases List.mem_cons.mp hy with he | he
      · rw [he]; exact hq h (by simp)
      · apply ih _ ?_ y he
        intro x hx
        rcases List.mem_append.mp hx with hx | hx
        · exact hq x (List.mem_cons_of_mem _ hx)
        · obtain ⟨⟨cx, jx⟩, hcx, hjx⟩ := List.mem_map.mp hx
          simp at hjx
          rw [← hjx]
          exact (hW.children_wf h (hq h (by simp)) cx jx hcx).1

/-- The final transition table contains every primary (trie) edge: for each
non-root node `i`, the entry at `(parent(i).id, symbol(i))` is `i`. -/
theorem build_graph_primary (A : Array TrieNode) (base : Nat) (hW : TrieWF A)
    (i : Nat) (hi1 : 1 ≤ i) (hi2 : i < A.size) :
    (FactorOracle.build_graph A base).edges
      (base + (getN A i).parent.getD 0) ((getN A i).char.getD 'a') = some i := by
  unfold FactorOracle.build_graph
  apply foldl_establish_primary A base hW
  · intro x hx
    rw [List.mem_filter] at hx
    refine ⟨?_, bfsAux_members A hW A.size [0] ?_ x hx.1⟩
    · have := hx.2
      simp at this
      omega
    · intro z hz; simp at hz; rw [hz]; exact hW.size_pos
  · rw [List.mem_filter]
    exact ⟨trieBFS_complete A hW i hi2, by simp; omega⟩

/-! ## Feeding the oracle along a trie path -/

theorem feedOracle_append (g : Nat → Char → Option Nat) (base : Nat) :
    ∀ (xs ys : List Char) (s : Nat),
      feedOracle g base s (xs ++ ys) =
        match feedOracle g base s xs with
        | none => none
        | some m => feedOracle g base m ys := by
  intro xs
  induction xs with
  | nil => intro ys s; rfl
  | cons c xs' ih =>
    intro ys s
    simp only [List.cons_append, feedOracle]
    cases g (base + s) c with
    | none => rfl
    | some s' => exact ih ys s'

/-- Feeding the symbols of a node's root-to-node path into the final oracle
reaches exactly that node, because every primary edge is present. -/
theorem feed_path (A : Array TrieNode) (base : Nat) (hW : TrieWF A) :
    ∀ i, i < A.size →
      feedOracle (FactorOracle.build_graph A base).edges base 0 (pathTo A i) =
        some i := by
  intro i
  induction i using Nat.strong_induction_on with
  | _ i ih =>
    intro hi
    by_cases hi0 : i = 0
    · rw [hi0, pathTo_root A hW]
      rfl
    · obtain ⟨p, c, hp, hc, hplt, _⟩ := hW.node_parent i (by omega) hi
      rw [pathTo_parent A hW i p c hi hp hc,
        feedOracle_append, ih p hplt (by omega)]
      simp only [feedOracle]
      have := build_graph_primary A base hW i (by omega) hi
      rw [hp, hc] at this
      simp at this
      rw [this]

/-! ## Oracle contract (C2) -/

/-- C2 counterexample: for P = {"ab"}, feeding the single symbol 'a' from
the root reaches (via the root's supplementary transition) the terminal
state whose `terms` = {"ab"}, although no pattern's reversed length-2 prefix
("ba") matches the tail of the symbols read so far (['a']): non-empty
`terms` does *not* imply a reversed-prefix match — that is exactly why the
search re-confirms candidates with `startswith`. -/
theorem oracle_terms_without_match :
    feedOracle (FactorOracle.build_graph
        (TrieNode.from_terms [['a', 'b']] 2) 0).edges 0 0 ['a'] = some 2 ∧
      (getN (TrieNode.from_terms [['a', 'b']] 2) 2).terms = [['a', 'b']] ∧
      ¬ ((([ 'a', 'b' ] : List Char).take 2).reverse <:+ ['a']) :=
  ⟨rfl, rfl, by decide⟩

/-- C2 amended: (if direction) for every valid pattern set P and every
pattern t in P, feeding t's reversed length-ℓ prefix from state 0 reaches a
state whose `terms` contain t (hence are non-empty); and when no outgoing
transition exists on the next symbol the automaton signals dead (`none`).
The converse — reaching a terms-bearing state implies a reversed-prefix
suffix match — is false (see the counterexample). -/
theorem oracle_reaches_terminal (P : List (List Char)) (l : Nat) (base : Nat) :
    (∀ t ∈ P, ∃ i,
      feedOracle (FactorOracle.build_graph
        (TrieNode.from_terms P l) base).edges base 0 ((t.take l).reverse) =
          some i ∧
      t ∈ (getN (TrieNode.from_terms P l) i).terms) ∧
    (∀ (g : Nat → Char → Option Nat) (s : Nat) (c : Char) (cs : List Char),
      g (base + s) c = none → feedOracle g base s (c :: cs) = none) := by
  constructor
  · intro t ht
    have hInv := from_terms_inv P l
    obtain ⟨i, hi, hip, hit⟩ := hInv.term_node t ht
    refine ⟨i, ?_, hit⟩
    rw [← hip]
    exact feed_path (TrieNode.from_terms P l) base hInv.wf i hi
  · intro g s c cs hg
    simp only [feedOracle, hg]

/-- Witness for `oracle_reaches_terminal` at P = {"ab", "cb"}, ℓ = 2,
t = "cb". -/
theorem oracle_reaches_terminal_witness :
    ∃ i,
      feedOracle (FactorOracle.build_graph
        (TrieNode.from_terms [['a', 'b'], ['c', 'b']] 2) 0).edges 0 0
          (((['c', 'b'] : List Char).take 2).reverse) = some i ∧
      (['c', 'b'] : List Char) ∈
        (getN (TrieNode.from_terms [['a', 'b'], ['c', 'b']] 2) i).terms :=
  (oracle_reaches_terminal [['a', 'b'], ['c', 'b']] 2 0).1 ['c', 'b'] (by decide)

/-! ## Basic walk lemmas -/

/-- The backward walk reads at most one symbol per decrement, so the final
`advance` is at least the initial one minus the window length. -/
theorem walk_advance_ge (g : Nat → Char → Option Nat) (base : Nat)
    (A : Array TrieNode) :
    ∀ (cs : List Char) (s : Nat) (a : Int),
      a - cs.length ≤ (walkWindow g base A s a cs).2 := by
  intro cs
  induction cs with
  | nil => intro s a; simp [walkWindow]
  | cons c cs ih =>
    intro s a
    simp only [walkWindow, List.length_cons]
    cases hg : g (base + s) c with
    | none => simp only []; push_cast; omega
    | some s' =>
      by_cases ht : (getN A s').terms ≠ []
      · simp only [if_pos ht]; push_cast; omega
      · simp only [if_neg ht]
        have := ih s' (a - 1)
        push_cast at this ⊢
        omega

/-- C9: at `search`'s call site the walk starts with `advance = ℓ` and reads
the reversal of a window of exactly `ℓ` symbols, so `advance ≥ 0` on exit. -/
theorem assert_advance_nonneg (o : FactorOracle) (doc : List Char)
    (h : o.prefix_length ≤ doc.length) :
    0 ≤ (walkWindow o.graph o.base o.trie 0 (o.prefix_length : Int)
      (doc.take o.prefix_length).reverse).2 := by
  have hge := walk_advance_ge o.graph o.base o.trie
    (doc.take o.prefix_length).reverse 0 (o.prefix_length : Int)
  have hlen : (doc.take o.prefix_length).reverse.length = o.prefix_length := by
    simp [List.length_take]; omega
  rw [hlen] at hge
  omega

/-- Witness for `assert_advance_nonneg` at a concrete oracle and document. -/
theorem assert_advance_nonneg_witness :
    (1 ≤ (['a', 'b'] : List Char).length) ∧
      0 ≤ (walkWindow (fun _ _ => none) 0 #[rootNode] 0 ((1 : Nat) : Int)
        ((['a', 'b'] : List Char).take 1).reverse).2 :=
  ⟨by decide,
    assert_advance_nonneg
      ⟨[['a']], 1, 0, #[rootNode], fun _ _ => none⟩ ['a', 'b'] (by decide)⟩

/-- A window walk with initial `advance = ℓ` over a full window leaves a
non-negative `advance` (free-standing form of `assert_advance_nonneg`). -/
theorem walk_advance_nonneg_of_take (g : Nat → Char → Option Nat) (base : Nat)
    (A : Array TrieNode) (l : Nat) (doc : List Char) (h : l ≤ doc.length) :
    0 ≤ (walkWindow g base A 0 (l : Int) (doc.take l).reverse).2 := by
  have hge := walk_advance_ge g base A (doc.take l).reverse 0 (l : Int)
  have hlen : (doc.take l).reverse.length = l := by
    simp [List.length_take]; omega
  rw [hlen] at hge
  omega

/-- Every executed iteration of the main loop strictly shortens the
document (shared helper for the fuel-irrelevance lemma and C8). -/
theorem search_iteration_shortens (g : Nat → Char → Option Nat) (base : Nat)
    (A : Array TrieNode) (l : Nat) (doc : List Char)
    (remaining : List (List Char)) (hl : 1 ≤ l) (h : l ≤ doc.length) :
    (searchIteration g base A l doc remaining).1.length < doc.length := by
  have hadv := walk_advance_nonneg_of_take g base A l doc h
  have hdoc : doc ≠ [] := by
    intro he; rw [he] at h; simp at h; omega
  have hlen0 : 1 ≤ doc.length := le_trans hl h
  unfold searchIteration
  simp only []
  set r := walkWindow g base A 0 (l : Int) (doc.take l).reverse with hr
  by_cases h0 : r.2 = 0
  · simp only [if_pos h0, h0]
    simp [List.length_drop]
    omega
  · simp only [if_neg h0]
    have h1 : 1 ≤ r.2.toNat := by omega
    simp [List.length_drop]
    omega

/-- C8: `FactorOracle.search` makes progress on every iteration of its main
loop: the cursor always advances by at least one symbol (by `advance ≥ 1`,
or by the explicit one-symbol nudge when `advance = 0`), so the document
strictly shrinks and the loop terminates; a fortiori, on every iteration
either the set of unconfirmed patterns shrinks or the cursor advances. -/
theorem search_iteration_progress (g : Nat → Char → Option Nat) (base : Nat)
    (A : Array TrieNode) (l : Nat) (doc : List Char)
    (remaining : List (List Char)) (hl : 1 ≤ l) (h : l ≤ doc.length) :
    (searchIteration g base A l doc remaining).1.length < doc.length :=
  search_iteration_shortens g base A l doc remaining hl h

/-- The fuel of `searchLoop` is irrelevant once it exceeds the document
length: by `search_iteration_shortens` every iteration strictly shortens the
document, so the loop always runs out of document before running out of
fuel.  This is the termination argument of C8 in the fuel embedding. -/
theorem searchLoop_fuel_irrel (g : Nat → Char → Option Nat) (base : Nat)
    (A : Array TrieNode) (l : Nat) :
    ∀ (n : Nat) (doc : List Char) (R : List (List Char)) (fuel fuel' : Nat),
      doc.length ≤ n → doc.length < fuel → doc.length < fuel' →
      searchLoop g base A l fuel doc R = searchLoop g base A l fuel' doc R := by
  intro n
  induction n with
  | zero =>
    intro doc R fuel fuel' hn hf hf'
    have hd : doc = [] := List.length_eq_zero.mp (Nat.le_zero.mp hn)
    subst hd
    cases fuel with
    | zero => omega
    | succ m =>
      cases fuel' with
      | zero => omega
      | succ m' => simp [searchLoop]
  | succ n ih =>
    intro doc R fuel fuel' hn hf hf'
    cases fuel with
    | zero => omega
    | succ m =>
      cases fuel' with
      | zero => omega
      | succ m' =>
        simp only [searchLoop]
        by_cases hg1 : (doc.take l).isEmpty = true ∨ R.isEmpty = true
        · simp only [if_pos hg1]
        · simp only [if_neg hg1]
          by_cases hg2 : (doc.take l).length < l
          · simp only [if_pos hg2]
          · simp only [if_neg hg2]
            have hl1 : 1 ≤ l := by
              by_contra hc
              have : l = 0 := by omega
              subst this
              simp at hg1
            have hld : l ≤ doc.length := by
              rw [List.length_take] at hg2
              omega
            have hprog := search_iteration_shortens g base A l doc R hl1 hld
            exact ih (searchIteration g base A l doc R).1
              (searchIteration g base A l doc R).2 m m'
              (by omega) (by omega) (by omega)

/-- `foldl min` over naturals yields 0 as soon as 0 is present. -/
theorem foldl_min_zero : ∀ (xs : List Nat) (a : Nat), a = 0 ∨ 0 ∈ xs →
    xs.foldl min a = 0 := by
  intro xs
  induction xs with
  | nil => intro a h; simpa using h
  | cons x xs ih =>
    intro a h
    simp only [List.foldl_cons]
    apply ih
    rcases h with h | h
    · left; simp [h]
    · rcases List.mem_cons.mp h with h | h
      · left; simp [← h]
      · right; exact h

/-- If some pattern is empty, the computed prefix length is 0. -/
theorem min_length_zero (P : List (List Char)) (hmem : [] ∈ P) :
    (P.map List.length).min? = some 0 := by
  cases P with
  | nil => simp at hmem
  | cons p P' =>
    simp only [List.map_cons, List.min?]
    congr 1
    apply foldl_min_zero
    rcases List.mem_cons.mp hmem with h | h
    · left; simp [← h]
    · right
      exact List.mem_map.mpr ⟨[], h, rfl⟩

/-- C10: a non-empty pattern collection containing an empty pattern is
accepted without error; the prefix length becomes 0, the first window is
empty, the main loop never runs, and the non-empty `remaining` set makes
`search_sbom` return `false`. -/
theorem empty_pattern_returns_false (doc : List Char) (P : List (List Char))
    (hne : P ≠ []) (hmem : [] ∈ P) :
    search_sbom doc P = .ok false := by
  unfold search_sbom search_sbomAt FactorOracle.init
  rw [min_length_zero P hmem]
  simp only [Except.map]
  unfold FactorOracle.search
  simp only []
  unfold searchLoop
  simp only [List.take_zero, List.isEmpty_nil, true_or, if_pos]
  congr 1
  simpa using hne

/-- Witness for `empty_pattern_returns_false` at a concrete input. -/
theorem empty_pattern_returns_false_witness :
    search_sbom ['x'] [['a'], []] = .ok false :=
  empty_pattern_returns_false ['x'] [['a'], []] (by decide) (by decide)

/-! ## The `TrieNode.counter` leak

`TrieNode.counter` is a Python class attribute that is never reset, so only
the very first `FactorOracle` built in a process has a root with id 0.  The
builder's `if parent.id:` test (meant as an is-root test) therefore behaves
differently in every later construction, supplementary transitions required
by the factor-oracle property are dropped, windows over-skip after a walk
dies on a factor that should have stayed alive, and the search misses
occurrences.  The following theorems evaluate the code at such an input. -/

/-- C1: with patterns {"aaaa", "aabb"} and document "aaaaaabb", both
patterns occur (naive search: true), and the first constructed oracle
(counter 0) agrees; but an oracle constructed when the counter holds 1 — or
9, the value after the first construction — returns false: the missing
supplementary edge lets the walk die on window "aaab" and skip over the
"aabb" occurrence. -/
theorem counter_leak_breaks_equivalence :
    search_naive ['a','a','a','a','a','a','b','b']
        [['a','a','a','a'], ['a','a','b','b']] = true ∧
      search_sbomAt 0 ['a','a','a','a','a','a','b','b']
        [['a','a','a','a'], ['a','a','b','b']] = .ok true ∧
      search_sbomAt 1 ['a','a','a','a','a','a','b','b']
        [['a','a','a','a'], ['a','a','b','b']] = .ok false ∧
      search_sbomAt 9 ['a','a','a','a','a','a','b','b']
        [['a','a','a','a'], ['a','a','b','b']] = .ok false :=
  ⟨by decide, rfl, rfl, rfl⟩

/-- C3: construction is not a pure function of P: building from
{"aaaa", "aabb"} at counter 0 yields a supplementary transition
`τ(n₅, 'a') = n₇` that is absent when the same build starts at counter 9
(node n₅ then has id 14), and two successive `search_sbom` calls on the same
arguments return different results. -/
theorem counter_leak_impure_construction :
    search_sbomAt 0 ['a','a','a','a','a','a','b','b']
        [['a','a','a','a'], ['a','a','b','b']] = .ok true ∧
      search_sbomAt 9 ['a','a','a','a','a','a','b','b']
        [['a','a','a','a'], ['a','a','b','b']] = .ok false ∧
      (FactorOracle.build_graph
        (TrieNode.from_terms [['a','a','a','a'], ['a','a','b','b']] 4) 0).edges
          5 'a' = some 7 ∧
      (FactorOracle.build_graph
        (TrieNode.from_terms [['a','a','a','a'], ['a','a','b','b']] 4) 9).edges
          14 'a' = none :=
  ⟨rfl, rfl, rfl, rfl⟩

/-- C5: a first call `search_sbom(D, P)` (counter 0) and an immediately
following call with the permuted collection P′ (counter 9 after the first
call allocated 9 nodes) return different results. -/
theorem counter_leak_breaks_permutation :
    search_sbomAt 0 ['a','a','a','a','a','a','b','b']
        [['a','a','a','a'], ['a','a','b','b']] = .ok true ∧
      search_sbomAt 9 ['a','a','a','a','a','a','b','b']
        [['a','a','b','b'], ['a','a','a','a']] = .ok false :=
  ⟨rfl, rfl⟩

/-! ## Boundary error behaviour (C4) -/

/-- C4 counterexample: a collection containing an empty pattern is *not*
rejected: `search_sbom` runs to completion and returns `false` instead of
surfacing a typed `EmptyPattern` error. -/
theorem empty_pattern_not_rejected :
    search_sbom ['x'] [[]] = .ok false := rfl

/-- C4 amended: an empty pattern collection is rejected, but only with the
untyped `ValueError` that `min(map(len, query_terms))` raises on an empty
sequence; a collection containing an empty pattern is accepted and the
search returns a boolean; no other inputs are rejected. -/
theorem boundary_error_behaviour (doc : List Char) (P : List (List Char)) :
    (P = [] → search_sbom doc P = .error .valueErrorMinEmpty) ∧
      (P ≠ [] → ∃ b, search_sbom doc P = .ok b) := by
  constructor
  · intro h
    subst h
    rfl
  · intro h
    cases P with
    | nil => exact absurd rfl h
    | cons p P' =>
      refine ⟨(FactorOracle.init 0 (p :: P')).toOption.elim false
        (fun o => o.search doc), ?_⟩
      unfold search_sbom search_sbomAt FactorOracle.init
      simp [List.min?, Except.map, Except.toOption]

/-- Witness for `boundary_error_behaviour` at concrete inputs. -/
theorem boundary_error_behaviour_witness :
    search_sbom ['x'] [] = .error .valueErrorMinEmpty ∧
      ∃ b, search_sbom ['x'] [['a']] = .ok b :=
  ⟨(boundary_error_behaviour ['x'] []).1 rfl,
    (boundary_error_behaviour ['x'] [['a']]).2 (by decide)⟩

/-- Witness for `search_iteration_progress` at a concrete input. -/
theorem search_iteration_progress_witness :
    (searchIteration (fun _ _ => none) 0 #[rootNode] 1 ['a'] [['b']]).1.length
      < (['a'] : List Char).length :=
  search_iteration_progress (fun _ _ => none) 0 #[rootNode] 1 ['a'] [['b']]
    (by decide) (by decide)

/-! ## Dead walks (C7) -/

/-- On a dead walk the inner loop consumed exactly `j + 1` symbols: the
prefix of length `j` was walked cleanly to some state `s'`, the symbol at
index `j` had no transition from `s'`, and the final `advance` is the
initial one minus `j + 1`. -/
theorem walk_dead_position (g : Nat → Char → Option Nat) (base : Nat)
    (A : Array TrieNode) :
    ∀ (cs : List Char) (s : Nat) (a : Int) (adv : Int),
      walkWindow g base A s a cs = (none, adv) →
      ∃ j s', j < cs.length ∧ adv = a - (j + 1) ∧
        walkWindow g base A s a (cs.take j) = (some s', a - j) ∧
        g (base + s') (cs.getD j 'a') = none := by
  intro cs
  induction cs with
  | nil => intro s a adv h; simp [walkWindow] at h
  | cons c rest ih =>
    intro s a adv h
    simp only [walkWindow] at h
    cases hg : g (base + s) c with
    | none =>
      rw [hg] at h
      simp only [Prod.mk.injEq] at h
      refine ⟨0, s, by simp, by omega, by simp [walkWindow], by simpa using hg⟩
    | some s' =>
      rw [hg] at h
      simp only [] at h
      by_cases ht : (getN A s').terms ≠ []
      · rw [if_pos ht] at h; simp at h
      · rw [if_neg ht] at h
        obtain ⟨j', s'', hj', hadv, hpre, hdead⟩ := ih s' (a - 1) adv h
        refine ⟨j' + 1, s'', by simpa using hj', by omega, ?_, by simpa using hdead⟩
        simp only [List.take_succ_cons, walkWindow, hg, if_neg ht]
        rw [hpre]
        congr 1
        omega

/-- C7 counterexample: on document "abcdef" with P = {"xyz"} the first
window is "abc"; the walk dies on its very first symbol 'c' with
`advance = 2`, so the cursor advances 2 = ℓ − 1 symbols (to "cdef"), not ℓ
symbols (which would give "def"). -/
theorem dead_walk_advance_not_ell :
    (searchIteration xyzOracle.graph xyzOracle.base xyzOracle.trie 3
        ['a', 'b', 'c', 'd', 'e', 'f'] [['x', 'y', 'z']]).1 = ['c', 'd', 'e', 'f'] ∧
      (['c', 'd', 'e', 'f'] : List Char) ≠ ['d', 'e', 'f'] :=
  ⟨rfl, by decide⟩

/-- C7 amended: with P = {"xyz"} and D = "abcdef" every window's backwards
walk dies on the first symbol read (the window's last symbol, for which the
root has no transition), the cursor advances ℓ − 1 = 2 symbols per window
(the position, counted from the left of the window, of the killing symbol),
the search never confirms anything and returns false; and in general, on a
dead walk `advance` equals the position, counted from the left of the
window, of the symbol that killed the walk. -/
theorem dead_walk_scenario :
    search_sbom ['a', 'b', 'c', 'd', 'e', 'f'] [['x', 'y', 'z']] = .ok false ∧
      (searchIteration xyzOracle.graph xyzOracle.base xyzOracle.trie 3
        ['a', 'b', 'c', 'd', 'e', 'f'] [['x', 'y', 'z']]) =
          (['c', 'd', 'e', 'f'], [['x', 'y', 'z']]) ∧
      (searchIteration xyzOracle.graph xyzOracle.base xyzOracle.trie 3
        ['c', 'd', 'e', 'f'] [['x', 'y', 'z']]) = (['e', 'f'], [['x', 'y', 'z']]) ∧
      ∀ (g : Nat → Char → Option Nat) (base : Nat) (A : Array TrieNode)
        (w : List Char) (adv : Int),
        walkWindow g base A 0 (w.length : Int) w.reverse = (none, adv) →
        0 ≤ adv ∧ adv < w.length ∧
          ∃ s', g (base + s') (w.getD adv.toNat 'a') = none := by
  refine ⟨rfl, rfl, rfl, ?_⟩
  intro g base A w adv h
  obtain ⟨j, s', hj, hadv, _, hdead⟩ :=
    walk_dead_position g base A w.reverse 0 (w.length : Int) adv h
  rw [List.length_reverse] at hj
  have hnn : 0 ≤ adv := by omega
  have hlt : adv < w.length := by omega
  refine ⟨hnn, hlt, s', ?_⟩
  have hidx : w.reverse.getD j 'a' = w.getD (w.length - 1 - j) 'a' := by
    rw [List.getD_eq_getElem?_getD, List.getD_eq_getElem?_getD]
    rw [List.getElem?_eq_getElem (by simpa using hj)]
    rw [List.getElem?_eq_getElem (by omega)]
    simp [List.getElem_reverse]
  have htn : adv.toNat = w.length - 1 - j := by omega
  rw [htn, ← hidx]
  exact hdead

/-- Witness for the universally-quantified part of `dead_walk_scenario`. -/
theorem dead_walk_scenario_witness :
    0 ≤ (0 : Int) ∧ (0 : Int) < (['a'] : List Char).length ∧
      ∃ s', (fun _ _ => none : Nat → Char → Option Nat)
        (0 + s') ((['a'] : List Char).getD (0 : Int).toNat 'a') = none :=
  dead_walk_scenario.2.2.2 (fun _ _ => none) 0 #[rootNode] ['a'] 0 rfl

end MSS
